import Mathlib

/-!
# Verification of the UI Layout Synthesis Engine of `ui-json-schema`

A shallow embedding of the UI-schema generator of the `holdemlab/ui-json-schema`
repository (package `parser`, file `struct_parser.go`, together with the rule
parsing of package `schema`), and proofs of the specification claims about it.

The embedding follows the Go source closely:

* Go `reflect` types are modelled by the inductive `GoType`/`GoField`, keeping
  exactly the distinctions the UI generator inspects (pointer, slice, struct,
  `time.Time`, everything else).
* `schema.UISchemaElement` is modelled by `Elem`; the `Options` map
  (`map[string]any`) is modelled by an association list `OptMap` with the
  `nil`-map/empty-map distinction kept via `Option`.  The only value shapes the
  generator ever stores in options are strings, booleans and a nested UI
  element (the `detail` sub-layout), captured by `OptVal`.
* Struct-tag decoding (`ParseFieldTags` / `ParseFormTag`) is an external
  collaborator per the specification; fields carry their decoded
  `FieldTags`/`FormOptions` records directly.
* Strings are handled through explicit `List Char` functions mirroring the Go
  `strings`/`strconv` behaviour used by the source (single-character
  separators, ASCII white-space trimming; digit-separator underscores of
  `strconv` are not modelled).
-/

namespace UIJS

/-! ## Character/string helpers mirroring the Go `strings` package -/

/-- ASCII white space, as trimmed by `strings.TrimSpace` on the tag values that
occur here (the full Unicode space classes are not modelled). -/
def isSpaceChar (c : Char) : Bool :=
  c = ' ' || c = '\t' || c = '\n' || c = '\r'

/-- Drop leading white space characters. -/
def dropLeadingSpace : List Char → List Char
  | [] => []
  | c :: cs => if isSpaceChar c then dropLeadingSpace cs else c :: cs

/-- `strings.TrimSpace` on the character list. -/
def trimChars (cs : List Char) : List Char :=
  (dropLeadingSpace (dropLeadingSpace cs.reverse).reverse)

/-- `strings.TrimSpace`. -/
def goTrim (s : String) : String := ⟨trimChars s.data⟩

/-- `strings.Cut(s, sep)` for a single-character separator: split at the first
occurrence, `none` when the separator does not occur. -/
def cutChar (sep : Char) : List Char → Option (List Char × List Char)
  | [] => none
  | c :: cs =>
    if c = sep then some ([], cs)
    else match cutChar sep cs with
      | none => none
      | some (a, b) => some (c :: a, b)

/-- `strings.Replace(s, old, new, 1)` for single characters: replace the first
occurrence only. -/
def replaceFirstChar (a b : Char) : List Char → List Char
  | [] => []
  | c :: cs => if c = a then b :: cs else c :: replaceFirstChar a b cs

/-! ## `strconv` parsing used by `parseConditionValue` -/

/-- `strconv.ParseBool`: accepts exactly these twelve strings. -/
def goParseBool (s : String) : Option Bool :=
  if s = "1" || s = "t" || s = "T" || s = "TRUE" || s = "true" || s = "True" then some true
  else if s = "0" || s = "f" || s = "F" || s = "FALSE" || s = "false" || s = "False" then some false
  else none

/-- Accumulate a base-10 digit string (most significant first); `none` on a
non-digit character. -/
def digitsToNatAux : List Char → Nat → Option Nat
  | [], acc => some acc
  | c :: cs, acc =>
    if c.isDigit then digitsToNatAux cs (acc * 10 + (c.toNat - 48)) else none

/-- Value of a non-empty all-digit string; `none` otherwise. -/
def digitsToNat : List Char → Option Nat
  | [] => none
  | c :: cs => digitsToNatAux (c :: cs) 0

/-- `strconv.ParseInt(s, 10, 64)`: optional sign, then base-10 digits, with the
64-bit range check (out-of-range is an error in Go and hence `none` here). -/
def goParseInt64 (s : String) : Option Int :=
  match s.data with
  | [] => none
  | c :: cs =>
    let signDigits : Bool × List Char :=
      if c = '-' then (true, cs) else if c = '+' then (false, cs) else (false, c :: cs)
    match digitsToNat signDigits.2 with
    | none => none
    | some n =>
      if signDigits.1 then
        if n ≤ 2 ^ 63 then some (-(n : Int)) else none
      else
        if n ≤ 2 ^ 63 - 1 then some (n : Int) else none

/-- Span of leading decimal digits. -/
def spanDigits : List Char → List Char × List Char
  | [] => ([], [])
  | c :: cs =>
    if c.isDigit then
      let r := spanDigits cs
      (c :: r.1, r.2)
    else ([], c :: cs)

/-- Hexadecimal digit test. -/
def isHexDigitChar (c : Char) : Bool :=
  c.isDigit || ('a' ≤ c && c ≤ 'f') || ('A' ≤ c && c ≤ 'F')

/-- Span of leading hexadecimal digits. -/
def spanHexDigits : List Char → List Char × List Char
  | [] => ([], [])
  | c :: cs =>
    if isHexDigitChar c then
      let r := spanHexDigits cs
      (c :: r.1, r.2)
    else ([], c :: cs)

/-- A decimal exponent part: either nothing, or `e`/`E`, an optional sign and
at least one digit, consuming the whole rest. -/
def acceptDecExp : List Char → Bool
  | [] => true
  | c :: cs =>
    if c = 'e' || c = 'E' then
      let body := match cs with
        | d :: ds => if d = '+' || d = '-' then ds else d :: ds
        | [] => []
      match digitsToNat body with
      | some _ => true
      | none => false
    else false

/-- A required binary exponent for hexadecimal floats: `p`/`P`, an optional
sign and at least one digit, consuming the whole rest. -/
def acceptBinExp : List Char → Bool
  | [] => false
  | c :: cs =>
    if c = 'p' || c = 'P' then
      let body := match cs with
        | d :: ds => if d = '+' || d = '-' then ds else d :: ds
        | [] => []
      match digitsToNat body with
      | some _ => true
      | none => false
    else false

/-- Decimal mantissa with optional fraction dot, then an optional exponent. -/
def acceptDecBody (cs : List Char) : Bool :=
  let s1 := spanDigits cs
  match s1.2 with
  | '.' :: r2 =>
    let s2 := spanDigits r2
    (!s1.1.isEmpty || !s2.1.isEmpty) && acceptDecExp s2.2
  | r1 => !s1.1.isEmpty && acceptDecExp r1

/-- Hexadecimal mantissa (after `0x`/`0X`) with optional fraction dot, then the
mandatory binary exponent. -/
def acceptHexBody (cs : List Char) : Bool :=
  let s1 := spanHexDigits cs
  match s1.2 with
  | '.' :: r2 =>
    let s2 := spanHexDigits r2
    (!s1.1.isEmpty || !s2.1.isEmpty) && acceptBinExp s2.2
  | r1 => !s1.1.isEmpty && acceptBinExp r1

/-- Lower-case an ASCII letter list. -/
def lowerChars (cs : List Char) : List Char := cs.map Char.toLower

/-- Syntax acceptance of `strconv.ParseFloat(s, 64)`: optional sign followed by
a case-insensitive special value (`inf`, `infinity`, `nan`), a decimal number
with optional fraction and exponent, or a hexadecimal float with mandatory
binary exponent.  Only syntax is modelled — the generator stores the source
text, never computes with the value.  Digit-separator underscores are not
modelled. -/
def goParseFloatOk (s : String) : Bool :=
  match s.data with
  | [] => false
  | c :: cs =>
    let body := if c = '+' || c = '-' then cs else c :: cs
    let low := lowerChars body
    if low = "inf".data || low = "infinity".data || low = "nan".data then true
    else
      match body with
      | '0' :: x :: rest =>
        if x = 'x' || x = 'X' then acceptHexBody rest else acceptDecBody body
      | _ => acceptDecBody body

/-! ## Condition values and rule parsing (`schema` package, `uischema.go`) -/

/-- The dynamic value stored in `Condition.Schema.Const`.  A float keeps its
source text: the generator never computes with the numeric value, it only
stores the result of the one-time coercion. -/
inductive CondValue where
  | b (v : Bool)
  | i (v : Int)
  | f (src : String)
  | str (v : String)
  deriving DecidableEq

/-- `parseConditionValue`: coerce a raw condition literal, trying boolean,
then 64-bit integer, then float, then falling back to the raw string —
in that fixed order. -/
def parseConditionValue (val : String) : CondValue :=
  match goParseBool val with
  | some b => .b b
  | none =>
    match goParseInt64 val with
    | some i => .i i
    | none =>
      if goParseFloatOk val then .f val else .str val

/-- Rule effects. -/
def EffectShow : String := "SHOW"
def EffectHide : String := "HIDE"
def EffectEnable : String := "ENABLE"
def EffectDisable : String := "DISABLE"

/-- `schema.UISchemaRule` with its `UISchemaCondition` flattened: the condition
consists of a scope and a one-field JSON schema holding only `Const`. -/
structure UISchemaRule where
  effect : String
  condScope : String
  condConst : CondValue
  deriving DecidableEq

/-- `schema.ParseRuleExpression`: parse `field=value` into a rule with the
given effect; `none` for an empty expression, a missing separator, or an empty
field name. -/
def ParseRuleExpression (expr : String) (effect : String) : Option UISchemaRule :=
  if expr = "" then none
  else
    match cutChar '=' expr.data with
    | none => none
    | some fr =>
      let field := goTrim ⟨fr.1⟩
      let rawValue := goTrim ⟨fr.2⟩
      if field = "" then none
      else
        some { effect := effect
               condScope := "#/properties/" ++ field
               condConst := parseConditionValue rawValue }

/-- `schema.ParseFormRuleExpression`: form tags use `:` as the field/value
separator; the first `:` is turned into `=` and the result is delegated to
`ParseRuleExpression`. -/
def ParseFormRuleExpression (expr : String) (effect : String) : Option UISchemaRule :=
  ParseRuleExpression ⟨replaceFirstChar ':' '=' expr.data⟩ effect

/-! ## The UI element model (`schema.UISchemaElement`) -/

mutual
/-- A value stored in an element's `Options` map: the generator only ever
stores strings, booleans and (for array controls) a nested UI element under
the `detail` key. -/
inductive OptVal where
  | s (v : String)
  | b (v : Bool)
  | el (e : Elem)
/-- `schema.UISchemaElement`: type, label, i18n key, scope, children, the
optional `Options` map (`none` models the `nil` Go map, which is distinct from
an empty map) and an optional rule. -/
inductive Elem where
  | mk (type label i18n scope : String) (elements : List Elem)
       (options : Option (List (String × OptVal))) (rule : Option UISchemaRule)
end

/-- The `Options` map, as an association list; the Go code never iterates the
map, so only lookup/insert/delete/size are meaningful. -/
abbrev OptMap := List (String × OptVal)

def Elem.typeOf : Elem → String
  | .mk t _ _ _ _ _ _ => t

def Elem.labelOf : Elem → String
  | .mk _ l _ _ _ _ _ => l

def Elem.i18nOf : Elem → String
  | .mk _ _ i _ _ _ _ => i

def Elem.scopeOf : Elem → String
  | .mk _ _ _ sc _ _ _ => sc

def Elem.elementsOf : Elem → List Elem
  | .mk _ _ _ _ es _ _ => es

def Elem.optionsOf : Elem → Option OptMap
  | .mk _ _ _ _ _ o _ => o

def Elem.ruleOf : Elem → Option UISchemaRule
  | .mk _ _ _ _ _ _ r => r

def Elem.withElements : Elem → List Elem → Elem
  | .mk t l i sc _ o r, es => .mk t l i sc es o r

def Elem.withLabel : Elem → String → Elem
  | .mk t _ i sc es o r, l => .mk t l i sc es o r

def Elem.withRule : Elem → Option UISchemaRule → Elem
  | .mk t l i sc es o _, r => .mk t l i sc es o r

def Elem.withI18n : Elem → String → Elem
  | .mk t l _ sc es o r, i => .mk t l i sc es o r

def Elem.withOptions : Elem → Option OptMap → Elem
  | .mk t l i sc es _ r, o => .mk t l i sc es o r

/-- First-match lookup in an options map. -/
def optGet (k : String) : OptMap → Option OptVal
  | [] => none
  | (k0, v) :: rest => if k0 = k then some v else optGet k rest

/-- Key-presence test. -/
def optHasKey (k : String) (m : OptMap) : Bool :=
  (optGet k m).isSome

/-- Map assignment `m[k] = v`: replace the first binding of `k`, or append a
new binding. -/
def optSet (k : String) (v : OptVal) : OptMap → OptMap
  | [] => [(k, v)]
  | (k0, v0) :: rest =>
    if k0 = k then (k0, v) :: rest else (k0, v0) :: optSet k v rest

/-- Map deletion `delete(m, k)`. -/
def optDel (k : String) : OptMap → OptMap
  | [] => []
  | (k0, v) :: rest => if k0 = k then optDel k rest else (k0, v) :: optDel k rest

/-- `schema.NewVerticalLayout`. -/
def NewVerticalLayout : Elem := .mk "VerticalLayout" "" "" "" [] none none

/-- `schema.NewHorizontalLayout`. -/
def NewHorizontalLayout : Elem := .mk "HorizontalLayout" "" "" "" [] none none

/-- `schema.NewGroup`. -/
def NewGroup (label : String) : Elem := .mk "Group" label "" "" [] none none

/-- `schema.NewCategorization`. -/
def NewCategorization : Elem := .mk "Categorization" "" "" "" [] none none

/-- `schema.NewCategory`. -/
def NewCategory (label : String) : Elem := .mk "Category" label "" "" [] none none

/-- `schema.NewControl`. -/
def NewControl (scope : String) : Elem := .mk "Control" "" "" scope [] none none

/-- `ensureOptions` followed by `el.Options[k] = v`: the only way the
generator ever writes to an options map. -/
def setOption (el : Elem) (k : String) (v : OptVal) : Elem :=
  el.withOptions (some (optSet k v ((el.optionsOf).getD [])))

/-- String-typed read of an option key, `""` when absent or not a string
(mirrors the Go `.(string)` type assertion with default). -/
def getOptString (el : Elem) (k : String) : String :=
  match el.optionsOf with
  | none => ""
  | some m =>
    match optGet k m with
    | some (.s v) => v
    | _ => ""

/-! ## Field metadata records and generator options -/

/-- `schema.FormOptions` — decoded `form` tag metadata.  The current field set
(including `LayoutGroup`) is declared in the repository documentation; tag
decoding itself is an external collaborator, so fields carry this record
directly. -/
structure FormOptions where
  label : String := ""
  hidden : Bool := false
  readonly : Bool := false
  multiline : Bool := false
  category : String := ""
  layout : String := ""
  layoutGroup : String := ""
  visibleIf : String := ""
  hideIf : String := ""
  enableIf : String := ""
  disableIf : String := ""
  i18nKey : String := ""
  deriving DecidableEq

/-- The UI-relevant projection of `schema.FieldTags` (the validation-only tag
fields play no role in UI synthesis). -/
structure FieldTags where
  i18nKey : String := ""
  visibleIf : String := ""
  hideIf : String := ""
  enableIf : String := ""
  disableIf : String := ""
  renderer : String := ""
  deriving DecidableEq

/-- `schema.AccessLevel`. -/
inductive AccessLevel where
  | readWrite
  | readOnly
  | hidden
  deriving DecidableEq

/-- First-match lookup in a string-keyed association list. -/
def lookupAssoc {α : Type} (xs : List (String × α)) (k : String) : Option α :=
  match xs with
  | [] => none
  | (k0, v) :: rest => if k0 = k then some v else lookupAssoc rest k

/-- `schema.Options` — the generator options used by UI synthesis: translator
(with locale), custom renderers, role permissions and active role. -/
structure Options where
  translator : Option (String → String → String) := none
  locale : String := ""
  renderers : List (String × String) := []
  rolePermissions : List (String × List (String × AccessLevel)) := []
  role : String := ""

/-- `translateLabel`: apply i18n translation to a label; without a translator
or locale the i18n key only stands in for a missing label. -/
def translateLabel (label i18nKey : String) (opts : Options) : String :=
  match opts.translator with
  | none => if i18nKey ≠ "" && label = "" then i18nKey else label
  | some tr =>
    if opts.locale = "" then (if i18nKey ≠ "" && label = "" then i18nKey else label)
    else
      let key := if i18nKey = "" && label ≠ "" then label else i18nKey
      if key = "" then "" else tr key opts.locale

/-- `isFieldHidden`: a field is excluded when its `hidden` form flag is set or
the active role maps it to `AccessHidden`. -/
def isFieldHidden (name : String) (fo : FormOptions) (opts : Options) : Bool :=
  fo.hidden ||
    (opts.role ≠ "" &&
      (match lookupAssoc opts.rolePermissions opts.role with
       | some perms =>
         match lookupAssoc perms name with
         | some lvl => lvl = AccessLevel.hidden
         | none => false
       | none => false))

/-- `isRoleReadOnly`. -/
def isRoleReadOnly (name : String) (opts : Options) : Bool :=
  opts.role ≠ "" &&
    (match lookupAssoc opts.rolePermissions opts.role with
     | some perms =>
       match lookupAssoc perms name with
       | some lvl => lvl = AccessLevel.readOnly
       | none => false
     | none => false)

/-- `resolveRenderer`: the tag renderer wins, else the options renderer map is
consulted by scope (empty string when absent). -/
def resolveRenderer (scope tagRenderer : String) (opts : Options) : String :=
  if tagRenderer ≠ "" then tagRenderer
  else (lookupAssoc opts.renderers scope).getD ""

/-- `applyRule`: set the first matching rule on an element, priority
`visibleIf` → `hideIf` → `enableIf` → `disableIf`. -/
def applyRule (el : Elem) (tags : FieldTags) : Elem :=
  if tags.visibleIf ≠ "" then el.withRule (ParseRuleExpression tags.visibleIf EffectShow)
  else if tags.hideIf ≠ "" then el.withRule (ParseRuleExpression tags.hideIf EffectHide)
  else if tags.enableIf ≠ "" then el.withRule (ParseRuleExpression tags.enableIf EffectEnable)
  else if tags.disableIf ≠ "" then el.withRule (ParseRuleExpression tags.disableIf EffectDisable)
  else el

/-- `applyCategoryRuleOptions`: stash a category-level rule hint
(`categoryRuleEffect`/`categoryRuleExpr`) into the options map, first matching
effect only. -/
def applyCategoryRuleOptions (el : Elem) (fo : FormOptions) : Elem :=
  let pair : String × String :=
    if fo.visibleIf ≠ "" then (EffectShow, fo.visibleIf)
    else if fo.hideIf ≠ "" then (EffectHide, fo.hideIf)
    else if fo.enableIf ≠ "" then (EffectEnable, fo.enableIf)
    else if fo.disableIf ≠ "" then (EffectDisable, fo.disableIf)
    else ("", "")
  if pair.2 = "" then el
  else setOption (setOption el "categoryRuleEffect" (.s pair.1)) "categoryRuleExpr" (.s pair.2)

/-- `applyCategoryI18nOption`: stash a category i18n key hint. -/
def applyCategoryI18nOption (el : Elem) (fo : FormOptions) : Elem :=
  if fo.i18nKey = "" then el
  else setOption el "categoryI18n" (.s fo.i18nKey)

/-- `buildControl`, label step: a fresh control, labelled when the translated
label is non-empty. -/
def controlLabelStep (scope controlLabel : String) : Elem :=
  let control := NewControl scope
  if controlLabel ≠ "" then control.withLabel controlLabel else control

/-- `buildControl`, category step: stash the `category` hint when present. -/
def controlCategoryStep (c : Elem) (fo : FormOptions) : Elem :=
  if fo.category ≠ "" then setOption c "category" (.s fo.category) else c

/-- `buildControl`, readonly/multiline step. -/
def controlReadonlyStep (c : Elem) (isReadonly multiline : Bool) : Elem :=
  if isReadonly || multiline then
    let c2 := if isReadonly then setOption c "readonly" (.b true) else c
    if multiline then setOption c2 "multi" (.b true) else c2
  else c

/-- `buildControl`, renderer step. -/
def controlRendererStep (c : Elem) (renderer : String) : Elem :=
  if renderer ≠ "" then setOption c "renderer" (.s renderer) else c

/-- `buildControl`: a fully configured Control element — label, `category`
hint, readonly/multiline options, renderer, rule, and the category rule/i18n
hints, in source order. -/
def buildControl (scope name : String) (fo : FormOptions) (tags : FieldTags)
    (opts : Options) : Elem :=
  applyCategoryI18nOption
    (applyCategoryRuleOptions
      (applyRule
        (controlRendererStep
          (controlReadonlyStep
            (controlCategoryStep
              (controlLabelStep scope (translateLabel fo.label tags.i18nKey opts)) fo)
            (fo.readonly || isRoleReadOnly name opts) fo.multiline)
          (resolveRenderer scope tags.renderer opts))
        tags)
      fo)
    fo

/-! ## Horizontal grouping pass (`groupHorizontalElements`) -/

/-- `isHorizontalElement`: the `layout` option is present and equal to the
string `"horizontal"`. -/
def isHorizontalElement (el : Elem) : Bool :=
  match el.optionsOf with
  | none => false
  | some m =>
    match optGet "layout" m with
    | some (.s v) => v = "horizontal"
    | _ => false

/-- `layoutGroupName`: the named group of a horizontal element, `""` when
absent or not a string. -/
def layoutGroupName (el : Elem) : String :=
  getOptString el "layoutGroup"

/-- The named-group membership test of the collection pass: a horizontal
element with a non-empty group name belongs to that group. -/
def memberName (el : Elem) : Option String :=
  if isHorizontalElement el then
    let g := layoutGroupName el
    if g ≠ "" then some g else none
  else none

/-- The bucket of a named group: all members, in original order (the Go code
collects them in a first pass over the whole sibling list). -/
def namedBucket (all : List Elem) (g : String) : List Elem :=
  all.filter (fun x => decide (memberName x = some g))

/-- `consumeLayoutOption`: remove the internal `layout`/`layoutGroup` options
from a consumed element, dropping the map entirely when it becomes empty. -/
def consumeLayoutOption (el : Elem) : Elem :=
  match el.optionsOf with
  | none => el
  | some m =>
    let m2 := optDel "layoutGroup" (optDel "layout" m)
    el.withOptions (if m2.isEmpty then none else some m2)

/-- Emission of one horizontal unit (the shared body of `flushUnnamed` and
`emitNamedGroup`): strip the layout hints from every member; a single member
is emitted bare, otherwise the members are wrapped in a new
`HorizontalLayout`. -/
def emitCore (ms : List Elem) : List Elem :=
  match ms with
  | [x] => [consumeLayoutOption x]
  | xs => [NewHorizontalLayout.withElements (xs.map consumeLayoutOption)]

/-- `flushUnnamed`: emit the pending buffer of consecutive unnamed horizontal
elements, if any. -/
def flushUnnamed (pending : List Elem) : List Elem :=
  if pending.isEmpty then [] else emitCore pending

/-- The walk of `groupHorizontalElements`: `all` is the original sibling list
(used for the pre-collected named buckets), `pending` the buffer of
consecutive unnamed horizontal elements, `emitted` the set of group names
already emitted. -/
def groupWalk (all : List Elem) : List Elem → List Elem → List String → List Elem
  | [], pending, _ => flushUnnamed pending
  | el :: rest, pending, emitted =>
    match memberName el with
    | some g =>
      flushUnnamed pending ++
        (if g ∈ emitted then groupWalk all rest [] emitted
         else emitCore (namedBucket all g) ++ groupWalk all rest [] (g :: emitted))
    | none =>
      if isHorizontalElement el then groupWalk all rest (pending ++ [el]) emitted
      else flushUnnamed pending ++ [el] ++ groupWalk all rest [] emitted

/-- `groupHorizontalElements`: group elements marked `layout=horizontal` into
`HorizontalLayout` containers — unnamed ones when consecutive, named ones
collected across the whole list and emitted at first occurrence. -/
def groupHorizontalElements (elements : List Elem) : List Elem :=
  groupWalk elements elements [] []

/-! ## Categorization pass (`buildCategorization`) -/

/-- `hasCategorizedElements`: some element carries a `category` option key. -/
def hasCategorizedElements (els : List Elem) : Bool :=
  els.any (fun el =>
    match el.optionsOf with
    | none => false
    | some m => optHasKey "category" m)

/-- The per-element step of the bucket collection: read the `category` option
(must be a non-empty string, else the bucket is `"Other"`), and consume it
(dropping the map when it becomes empty). -/
def catNameConsume (el : Elem) : String × Elem :=
  match el.optionsOf with
  | none => ("Other", el)
  | some m =>
    match optGet "category" m with
    | some (.s c) =>
      if c ≠ "" then
        let m2 := optDel "category" m
        (c, el.withOptions (if m2.isEmpty then none else some m2))
      else ("Other", el)
    | _ => ("Other", el)

/-- Append a member to its bucket, creating the bucket at the end on first
sight (the insertion-order behaviour of `catMap`/`catOrder`). -/
def addToBuckets (acc : List (String × List Elem)) (n : String) (x : Elem) :
    List (String × List Elem) :=
  match acc with
  | [] => [(n, [x])]
  | (n0, xs) :: rest =>
    if n0 = n then (n0, xs ++ [x]) :: rest else (n0, xs) :: addToBuckets rest n x

/-- The bucket-collection fold of `buildCategorization`. -/
def collectAux : List Elem → List (String × List Elem) → List (String × List Elem)
  | [], acc => acc
  | el :: rest, acc =>
    let p := catNameConsume el
    collectAux rest (addToBuckets acc p.1 p.2)

/-- All category buckets of a sibling list, in first-occurrence order. -/
def collectBuckets (els : List Elem) : List (String × List Elem) :=
  collectAux els []

/-- The scan of `extractCategoryRule`: find the first child carrying both
`categoryRuleEffect` and `categoryRuleExpr` (as strings), parse the rule and
delete the hint pair from that child. -/
def scanCategoryRule : List Elem → Option (Option UISchemaRule × List Elem)
  | [] => none
  | el :: rest =>
    match el.optionsOf with
    | none =>
      match scanCategoryRule rest with
      | none => none
      | some p => some (p.1, el :: p.2)
    | some m =>
      match optGet "categoryRuleEffect" m, optGet "categoryRuleExpr" m with
      | some (.s effect), some (.s expr) =>
        let m2 := optDel "categoryRuleExpr" (optDel "categoryRuleEffect" m)
        some (ParseFormRuleExpression expr effect,
              el.withOptions (if m2.isEmpty then none else some m2) :: rest)
      | _, _ =>
        match scanCategoryRule rest with
        | none => none
        | some p => some (p.1, el :: p.2)

/-- `extractCategoryRule`: the first hint pair found becomes the Category's
own rule. -/
def extractCategoryRule (cat : Elem) : Elem :=
  match scanCategoryRule cat.elementsOf with
  | none => cat
  | some p => (cat.withElements p.2).withRule p.1

/-- The scan of `extractCategoryI18n`: find the first child carrying a
non-empty string `categoryI18n` hint and delete it from that child. -/
def scanCategoryI18n : List Elem → Option (String × List Elem)
  | [] => none
  | el :: rest =>
    match el.optionsOf with
    | none =>
      match scanCategoryI18n rest with
      | none => none
      | some p => some (p.1, el :: p.2)
    | some m =>
      match optGet "categoryI18n" m with
      | some (.s key) =>
        if key ≠ "" then
          let m2 := optDel "categoryI18n" m
          some (key, el.withOptions (if m2.isEmpty then none else some m2) :: rest)
        else
          match scanCategoryI18n rest with
          | none => none
          | some p => some (p.1, el :: p.2)
      | _ =>
        match scanCategoryI18n rest with
        | none => none
        | some p => some (p.1, el :: p.2)

/-- `extractCategoryI18n`: the first hint found sets the Category's i18n key
and translates its label. -/
def extractCategoryI18n (cat : Elem) (opts : Options) : Elem :=
  match scanCategoryI18n cat.elementsOf with
  | none => cat
  | some p =>
    ((cat.withElements p.2).withI18n p.1).withLabel
      (translateLabel cat.labelOf p.1 opts)

/-- The per-bucket finishing of `buildCategorization`: regroup the members
horizontally, then lift the first rule hint and the first i18n hint onto the
Category. -/
def finishCategory (opts : Options) (p : String × List Elem) : Elem :=
  let cat := (NewCategory p.1).withElements (groupHorizontalElements p.2)
  extractCategoryI18n (extractCategoryRule cat) opts

/-- `buildCategorization`: bucket the siblings by their `category` option
(default `"Other"`), in first-occurrence order, and wrap the finished
Category nodes in a Categorization. -/
def buildCategorization (els : List Elem) (opts : Options) : Elem :=
  NewCategorization.withElements ((collectBuckets els).map (finishCategory opts))

/-! ## The Go type model and the node builder (`buildUIElements`) -/

mutual
/-- The projection of `reflect.Type` the UI generator inspects: pointers,
slices, structs, `time.Time` (an opaque leaf in the generator, hence its own
constructor), and a catch-all for every other kind (string, bool, numbers,
maps, ...), whose UI treatment is uniform. -/
inductive GoType where
  | prim (kind : String)
  | timeType
  | ptr (t : GoType)
  | slice (t : GoType)
  | structT (fields : List GoField)
/-- A struct field: Go name, resolved JSON name, exported flag, and the
decoded `form` tag / field tag records (tag decoding is an external
collaborator). -/
inductive GoField where
  | mk (goName jsonName : String) (exported : Bool) (fo : FormOptions)
       (tags : FieldTags) (ty : GoType)
end

/-- `applyGroupCategoryOptions`: propagate category, category-rule and
category-i18n hints from the form tag onto a Group element. -/
def applyGroupCategoryOptions (group : Elem) (fo : FormOptions) : Elem :=
  let group :=
    if fo.category ≠ "" then setOption group "category" (.s fo.category) else group
  applyCategoryI18nOption (applyCategoryRuleOptions group fo) fo

/-- The Group element built for a nested-struct field, given its recursively
built children: label from the form tag or the Go field name, translated;
children grouped horizontally immediately; rule and category hints applied. -/
def mkGroupElem (goName : String) (fo : FormOptions) (tags : FieldTags)
    (opts : Options) (children : List Elem) : Elem :=
  let label := if fo.label = "" then goName else fo.label
  let label := translateLabel label tags.i18nKey opts
  let group := (NewGroup label).withElements (groupHorizontalElements children)
  let group := applyRule group tags
  applyGroupCategoryOptions group fo

/-- The `layout=horizontal` annotation added to a Control by
`buildUIElements` (with the named group when present). -/
def annotateLayout (control : Elem) (fo : FormOptions) : Elem :=
  if fo.layout = "horizontal" then
    let c := setOption control "layout" (.s "horizontal")
    if fo.layoutGroup ≠ "" then setOption c "layoutGroup" (.s fo.layoutGroup) else c
  else control

/-- Modelled from the spec: the array-of-struct branch of the node builder is
absent from the `struct_parser.go` under `src/` (only its tests and
documentation are present).  Per the specification and repository docs, a
slice of a struct shape becomes a `Control` whose `options.detail` holds a
fresh `VerticalLayout` built by recursing over the element struct's fields
with the scope prefix reset to `#/properties` (horizontal grouping applies
inside the detail; an element struct with no visible fields produces no
`detail` key). -/
def mkDetailControl (scope name : String) (fo : FormOptions) (tags : FieldTags)
    (opts : Options) (children : List Elem) : Elem :=
  let control := buildControl scope name fo tags opts
  let detailChildren := groupHorizontalElements children
  let control :=
    if detailChildren.isEmpty then control
    else setOption control "detail" (.el (NewVerticalLayout.withElements detailChildren))
  annotateLayout control fo

mutual
/-- `buildUIElements`: iterate over struct fields and build UI Schema
elements (functionally: the list appended to the parent's elements). -/
def buildUIElements : List GoField → String → Options → List Elem
  | [], _, _ => []
  | f :: rest, basePath, opts =>
    buildUIField f basePath opts ++ buildUIElements rest basePath opts
/-- The per-field body of `buildUIElements`: skip unexported, `json:"-"` and
hidden fields; nested structs (one pointer unwrapped, `time.Time` excluded)
become Groups; slices of (pointer-to-)structs become array-detail Controls
(modelled branch); every other field becomes a Control with the optional
horizontal-layout annotation. -/
def buildUIField : GoField → String → Options → List Elem
  | .mk goName name ex fo tags ty, basePath, opts =>
    if ex = false then []
    else if name = "-" then []
    else if isFieldHidden name fo opts then []
    else
      let scope := basePath ++ "/" ++ name
      match ty with
      | .structT flds =>
        [mkGroupElem goName fo tags opts (buildUIElements flds (scope ++ "/properties") opts)]
      | .ptr (.structT flds) =>
        [mkGroupElem goName fo tags opts (buildUIElements flds (scope ++ "/properties") opts)]
      | .slice (.structT eflds) =>
        [mkDetailControl scope name fo tags opts (buildUIElements eflds "#/properties" opts)]
      | .slice (.ptr (.structT eflds)) =>
        [mkDetailControl scope name fo tags opts (buildUIElements eflds "#/properties" opts)]
      | .ptr (.slice (.structT eflds)) =>
        [mkDetailControl scope name fo tags opts (buildUIElements eflds "#/properties" opts)]
      | .ptr (.slice (.ptr (.structT eflds))) =>
        [mkDetailControl scope name fo tags opts (buildUIElements eflds "#/properties" opts)]
      | _ => [annotateLayout (buildControl scope name fo tags opts) fo]
end

/-- The root sibling list of a synthesis call: one pointer unwrapped, a struct
root is walked, any other root shape yields no elements. -/
def rootUIElements (t : GoType) (opts : Options) : List Elem :=
  match t with
  | .structT flds => buildUIElements flds "#/properties" opts
  | .ptr (.structT flds) => buildUIElements flds "#/properties" opts
  | _ => []

/-- `GenerateUISchemaWithOptions`: build the root sibling list; if any element
carries a category hint, wrap everything into a Categorization, otherwise
apply horizontal grouping to the root list.  The Go error result is always
`nil`, modelled by the always-`none` second component. -/
def GenerateUISchemaWithOptions (t : GoType) (opts : Options) : Elem × Option String :=
  let els := rootUIElements t opts
  if hasCategorizedElements els then (buildCategorization els opts, none)
  else (NewVerticalLayout.withElements (groupHorizontalElements els), none)

/-! ## Accessors for the Go field model -/

def GoField.goNameOf : GoField → String
  | .mk g _ _ _ _ _ => g

def GoField.jsonNameOf : GoField → String
  | .mk _ n _ _ _ _ => n

def GoField.exportedOf : GoField → Bool
  | .mk _ _ e _ _ _ => e

def GoField.foOf : GoField → FormOptions
  | .mk _ _ _ fo _ _ => fo

def GoField.tagsOf : GoField → FieldTags
  | .mk _ _ _ _ tg _ => tg

def GoField.tyOf : GoField → GoType
  | .mk _ _ _ _ _ ty => ty

/-! ## Tree checkers

Decidable whole-tree properties of a synthesized UI tree, traversing the
children lists and the nested elements stored inside options maps (the
`detail` sub-layouts). -/

mutual
/-- `noKeysElem ks e`: no options map anywhere in `e` contains a key from
`ks`, and no options map anywhere in `e` is present but empty. -/
def noKeysElem (ks : List String) : Elem → Bool
  | .mk _ _ _ _ es opts _ =>
    (match opts with
     | none => true
     | some m => !m.isEmpty && !(ks.any (fun k => optHasKey k m)) && noKeysVals ks m) &&
    noKeysList ks es
/-- `noKeysElem` over a children list. -/
def noKeysList (ks : List String) : List Elem → Bool
  | [] => true
  | e :: es => noKeysElem ks e && noKeysList ks es
/-- `noKeysElem` over the element values stored inside an options map. -/
def noKeysVals (ks : List String) : List (String × OptVal) → Bool
  | [] => true
  | (_, .el e) :: rest => noKeysElem ks e && noKeysVals ks rest
  | (_, _) :: rest => noKeysVals ks rest
end

/-- The two layout-grouping hint keys. -/
def layoutKeys : List String := ["layout", "layoutGroup"]

/-- The six transient hint keys of the specification. -/
def hintKeys : List String :=
  ["category", "categoryRuleEffect", "categoryRuleExpr", "categoryI18n", "layout", "layoutGroup"]

/-- Cleanliness of an option value (the element stored under `detail` must be
clean). -/
def valCleanB (ks : List String) : OptVal → Bool
  | .el e => noKeysElem ks e
  | _ => true

/-- The top-level build invariant of an element freshly produced by
`buildUIField`, before the sibling list is grouped: its own options map (when
present) is non-empty, carries `layout` only with the string value
`"horizontal"`, carries `layoutGroup` only on a horizontal element, and all
nested parts (children and `detail` values) are already fully free of layout
hints. -/
def hintOkTop (el : Elem) : Bool :=
  match el.optionsOf with
  | none => true
  | some m =>
    !m.isEmpty &&
    (match optGet "layout" m with
     | none => true
     | some (.s v) => v = "horizontal"
     | some _ => false) &&
    (!(optHasKey "layoutGroup" m) || isHorizontalElement el) &&
    noKeysVals layoutKeys m

/-- The full invariant of a freshly built (not yet grouped) element. -/
def postBuildElem (el : Elem) : Bool :=
  hintOkTop el && noKeysList layoutKeys el.elementsOf

/-- The `detail` sub-layout of a control, when present as an element value. -/
def getDetail (el : Elem) : Option Elem :=
  match el.optionsOf with
  | none => none
  | some m =>
    match optGet "detail" m with
    | some (.el e) => some e
    | _ => none

/-! ## Specification-side definitions used in claim statements -/

/-- The positional reformulation of the grouping walk used by the
specification: instead of the `emitted` set of the implementation, a
named-group member emits its whole bucket exactly when no member of the same
group occurs earlier in the list (`done` is the processed prefix).  Later
occurrences of members of an already-emitted group emit nothing of their own
(they only flush the pending unnamed buffer, as the specification's step 3
prescribes). -/
def groupSpecWalk (all : List Elem) : List Elem → List Elem → List Elem → List Elem
  | [], _, pending => flushUnnamed pending
  | el :: rest, done, pending =>
    match memberName el with
    | some g =>
      flushUnnamed pending ++
        (if ∃ x ∈ done, memberName x = some g then
          groupSpecWalk all rest (done ++ [el]) []
         else emitCore (namedBucket all g) ++ groupSpecWalk all rest (done ++ [el]) [])
    | none =>
      if isHorizontalElement el then groupSpecWalk all rest (done ++ [el]) (pending ++ [el])
      else flushUnnamed pending ++ [el] ++ groupSpecWalk all rest (done ++ [el]) []

/-- Grouping, as described positionally by the specification. -/
def groupSpec (es : List Elem) : List Elem :=
  groupSpecWalk es es [] []

/-- The bucket name of a sibling under categorization. -/
def catNameOf (el : Elem) : String := (catNameConsume el).1

/-- A sibling with its `category` option consumed. -/
def consumeCategoryOption (el : Elem) : Elem := (catNameConsume el).2

/-- First-occurrence deduplication with an explicit seen set. -/
def dedupFOAux (seen : List String) : List String → List String
  | [] => []
  | n :: ns =>
    if n ∈ seen then dedupFOAux seen ns
    else n :: dedupFOAux (n :: seen) ns

/-- The member list of a bucket (empty when the bucket does not exist). -/
def getBucket (bs : List (String × List Elem)) (n : String) : List Elem :=
  (lookupAssoc bs n).getD []

/-- Visibility of a field in the node builder: exported, not `json:"-"`, and
not hidden by the form flag or the active role. -/
def fieldVisible (f : GoField) (opts : Options) : Bool :=
  f.exportedOf && f.jsonNameOf ≠ "-" && !isFieldHidden f.jsonNameOf f.foOf opts

/-- A field type that takes the plain-Control branch of the node builder
(neither a (pointer-to-)struct nor a slice of a (pointer-to-)struct). -/
def isPlainTy : GoType → Bool
  | .structT _ => false
  | .ptr (.structT _) => false
  | .slice (.structT _) => false
  | .slice (.ptr (.structT _)) => false
  | .ptr (.slice (.structT _)) => false
  | .ptr (.slice (.ptr (.structT _))) => false
  | _ => true

/-! ## Concrete inputs used by scenario parts, witnesses and counterexamples -/

/-- `city`, horizontally grouped under the name `addr`. -/
def cityEl : Elem :=
  .mk "Control" "" "" "#/properties/city" []
    (some [("layout", .s "horizontal"), ("layoutGroup", .s "addr")]) none

/-- `email`, plain. -/
def emailEl : Elem := .mk "Control" "" "" "#/properties/email" [] none none

/-- `zip`, horizontally grouped under the name `addr`. -/
def zipEl : Elem :=
  .mk "Control" "" "" "#/properties/zip" []
    (some [("layout", .s "horizontal"), ("layoutGroup", .s "addr")]) none

/-- `city` with its layout hints consumed. -/
def cityStripped : Elem := .mk "Control" "" "" "#/properties/city" [] none none

/-- `zip` with its layout hints consumed. -/
def zipStripped : Elem := .mk "Control" "" "" "#/properties/zip" [] none none

/-- A control carrying a `category` hint for the bucket `X`. -/
def catXEl : Elem :=
  .mk "Control" "" "" "#/properties/x" [] (some [("category", .s "X")]) none

/-- A struct type whose two fields are unnamed-horizontal, the first of them
categorized: the input separating the code's categorize-then-group order from
the claimed group-then-categorize order. -/
def catMixType : GoType :=
  .structT
    [.mk "A" "a" true { category := "X", layout := "horizontal" } {} (.prim "string"),
     .mk "B" "b" true { layout := "horizontal" } {} (.prim "string")]

/-- A struct with a nested struct whose inner field carries category,
category-rule and category-i18n form hints while no root sibling is
categorized: the synthesis path on which all four category hint keys survive
into the returned tree. -/
def leakType : GoType :=
  .structT
    [.mk "M" "m" true {} {}
      (.structT
        [.mk "F" "f" true
          { category := "X", visibleIf := "a:1", i18nKey := "k" } {} (.prim "string")])]

/-- A two-field element struct for the array-detail witness. -/
def itemFields : List GoField :=
  [.mk "Numbers" "numbers" true {} {} (.prim "int"),
   .mk "Bonus" "bonus" true {} {} (.prim "int")]

/-- Lookup of an option key on an element (`none` when the map is absent). -/
def elGet (el : Elem) (k : String) : Option OptVal :=
  match el.optionsOf with
  | none => none
  | some m => optGet k m

/-- A present options map is non-empty. -/
def optsNonemptyB (el : Elem) : Bool :=
  match el.optionsOf with
  | none => true
  | some m => !m.isEmpty

/-- All element values stored in the options map are clean. -/
def valsCleanB (ks : List String) (el : Elem) : Bool :=
  match el.optionsOf with
  | none => true
  | some m => noKeysVals ks m

mutual
/-- Size measure on the Go type model, used for the induction over the node
builder. -/
def goTypeSize : GoType → Nat
  | .prim _ => 1
  | .timeType => 1
  | .ptr t => 1 + goTypeSize t
  | .slice t => 1 + goTypeSize t
  | .structT flds => 1 + goFieldsSize flds
def goFieldSize : GoField → Nat
  | .mk _ _ _ _ _ ty => 1 + goTypeSize ty
def goFieldsSize : List GoField → Nat
  | [] => 0
  | f :: fs => 1 + goFieldSize f + goFieldsSize fs
end

/-- The visible fields of a field list. -/
def visibleFields (eflds : List GoField) (opts : Options) : List GoField :=
  eflds.filter (fun f => fieldVisible f opts)

/-- The element produced by the plain-Control branch of the node builder. -/
def plainControlFor (basePath : String) (opts : Options) (f : GoField) : Elem :=
  annotateLayout
    (buildControl (basePath ++ "/" ++ f.jsonNameOf) f.jsonNameOf f.foOf f.tagsOf opts)
    f.foOf

/-! ## Basic lemmas about the element setters and the options map -/

theorem setOption_ruleOf (el : Elem) (k : String) (v : OptVal) :
    (setOption el k v).ruleOf = el.ruleOf := by
  cases el; rfl

theorem setOption_typeOf (el : Elem) (k : String) (v : OptVal) :
    (setOption el k v).typeOf = el.typeOf := by
  cases el; rfl

theorem setOption_scopeOf (el : Elem) (k : String) (v : OptVal) :
    (setOption el k v).scopeOf = el.scopeOf := by
  cases el; rfl

theorem setOption_elementsOf (el : Elem) (k : String) (v : OptVal) :
    (setOption el k v).elementsOf = el.elementsOf := by
  cases el; rfl

theorem withLabel_ruleOf (el : Elem) (l : String) :
    (el.withLabel l).ruleOf = el.ruleOf := by
  cases el; rfl

theorem withLabel_typeOf (el : Elem) (l : String) :
    (el.withLabel l).typeOf = el.typeOf := by
  cases el; rfl

theorem withLabel_scopeOf (el : Elem) (l : String) :
    (el.withLabel l).scopeOf = el.scopeOf := by
  cases el; rfl

theorem withLabel_elementsOf (el : Elem) (l : String) :
    (el.withLabel l).elementsOf = el.elementsOf := by
  cases el; rfl

theorem withLabel_optionsOf (el : Elem) (l : String) :
    (el.withLabel l).optionsOf = el.optionsOf := by
  cases el; rfl

theorem withRule_ruleOf (el : Elem) (r : Option UISchemaRule) :
    (el.withRule r).ruleOf = r := by
  cases el; rfl

theorem withRule_typeOf (el : Elem) (r : Option UISchemaRule) :
    (el.withRule r).typeOf = el.typeOf := by
  cases el; rfl

theorem withRule_scopeOf (el : Elem) (r : Option UISchemaRule) :
    (el.withRule r).scopeOf = el.scopeOf := by
  cases el; rfl

theorem withRule_elementsOf (el : Elem) (r : Option UISchemaRule) :
    (el.withRule r).elementsOf = el.elementsOf := by
  cases el; rfl

theorem withRule_optionsOf (el : Elem) (r : Option UISchemaRule) :
    (el.withRule r).optionsOf = el.optionsOf := by
  cases el; rfl

theorem NewControl_ruleOf (scope : String) : (NewControl scope).ruleOf = none := rfl

theorem applyCategoryRuleOptions_ruleOf (el : Elem) (fo : FormOptions) :
    (applyCategoryRuleOptions el fo).ruleOf = el.ruleOf := by
  unfold applyCategoryRuleOptions
  split_ifs <;> simp_all [setOption_ruleOf]

theorem applyCategoryI18nOption_ruleOf (el : Elem) (fo : FormOptions) :
    (applyCategoryI18nOption el fo).ruleOf = el.ruleOf := by
  unfold applyCategoryI18nOption
  split_ifs <;> simp_all [setOption_ruleOf]

theorem applyRule_ruleOf (el : Elem) (tags : FieldTags) :
    (applyRule el tags).ruleOf =
      (if tags.visibleIf ≠ "" then ParseRuleExpression tags.visibleIf EffectShow
       else if tags.hideIf ≠ "" then ParseRuleExpression tags.hideIf EffectHide
       else if tags.enableIf ≠ "" then ParseRuleExpression tags.enableIf EffectEnable
       else if tags.disableIf ≠ "" then ParseRuleExpression tags.disableIf EffectDisable
       else el.ruleOf) := by
  unfold applyRule
  split_ifs <;> simp [withRule_ruleOf]

/-- The rule attached by `buildControl` comes from the four struct rule tags
in fixed priority (the initial control has no rule; nothing after `applyRule`
changes it). -/
theorem buildControl_ruleOf (scope name : String) (fo : FormOptions)
    (tags : FieldTags) (opts : Options) :
    (buildControl scope name fo tags opts).ruleOf =
      (if tags.visibleIf ≠ "" then ParseRuleExpression tags.visibleIf EffectShow
       else if tags.hideIf ≠ "" then ParseRuleExpression tags.hideIf EffectHide
       else if tags.enableIf ≠ "" then ParseRuleExpression tags.enableIf EffectEnable
       else if tags.disableIf ≠ "" then ParseRuleExpression tags.disableIf EffectDisable
       else none) := by
  unfold buildControl
  rw [applyCategoryI18nOption_ruleOf, applyCategoryRuleOptions_ruleOf, applyRule_ruleOf]
  have hbase :
      (controlRendererStep
        (controlReadonlyStep
          (controlCategoryStep
            (controlLabelStep scope (translateLabel fo.label tags.i18nKey opts)) fo)
          (fo.readonly || isRoleReadOnly name opts) fo.multiline)
        (resolveRenderer scope tags.renderer opts)).ruleOf = none := by
    unfold controlRendererStep controlReadonlyStep controlCategoryStep controlLabelStep
    split_ifs <;> simp [setOption_ruleOf, withLabel_ruleOf, NewControl_ruleOf]
  rw [hbase]

/-! ## C9 — malformed rule expressions decode to "no rule" -/

/-- C9.  Rule parsing never errors: an empty expression, an expression without
the `=` separator, or an expression whose field name is empty after trimming
yields no rule, and a control whose only rule tag is such an expression is
emitted without a rule. -/
theorem claim_C9 (expr effect : String)
    (h : expr = "" ∨ cutChar '=' expr.data = none ∨
         (∀ p : List Char × List Char, cutChar '=' expr.data = some p → goTrim ⟨p.1⟩ = "")) :
    ParseRuleExpression expr effect = none ∧
    (∀ (scope name : String) (fo : FormOptions) (opts : Options) (tags : FieldTags),
      tags.visibleIf = expr → tags.hideIf = "" → tags.enableIf = "" → tags.disableIf = "" →
      (buildControl scope name fo tags opts).ruleOf = none) := by
  have hmain : ∀ eff : String, ParseRuleExpression expr eff = none := by
    intro eff
    unfold ParseRuleExpression
    rcases h with h | h | h
    · simp [h]
    · by_cases he : expr = ""
      · simp [he]
      · simp [he, h]
    · by_cases he : expr = ""
      · simp [he]
      · cases hc : cutChar '=' expr.data with
        | none => simp [he, hc]
        | some p => simp [he, hc, h p hc]
  refine ⟨hmain effect, ?_⟩
  intro scope name fo opts tags hv hh he hd
  subst hv
  rw [buildControl_ruleOf]
  by_cases hne : tags.visibleIf = ""
  · simp [hne, hh, he, hd]
  · simp [hne, hmain]

/-- Witness for C9: a concrete empty expression and a concrete expression
without a separator both decode to no rule. -/
theorem claim_C9_witness :
    ParseRuleExpression "" "SHOW" = none ∧ ParseRuleExpression "abc" "HIDE" = none :=
  ⟨(claim_C9 "" "SHOW" (Or.inl rfl)).1,
   (claim_C9 "abc" "HIDE" (Or.inr (Or.inl (by decide)))).1⟩

/-! ## C8 — one-time condition-literal coercion in fixed order -/

/-- C8.  The condition literal is coerced by trying boolean first, then 64-bit
integer, then float syntax, then falling back to the raw string, in that fixed
order; the literal stored in a parsed rule is exactly one application of this
coercion to the trimmed right-hand side of the expression. -/
theorem claim_C8 :
    (∀ (s : String) (bv : Bool), goParseBool s = some bv → parseConditionValue s = .b bv) ∧
    (∀ (s : String) (iv : Int), goParseBool s = none → goParseInt64 s = some iv →
      parseConditionValue s = .i iv) ∧
    (∀ s : String, goParseBool s = none → goParseInt64 s = none → goParseFloatOk s = true →
      parseConditionValue s = .f s) ∧
    (∀ s : String, goParseBool s = none → goParseInt64 s = none → goParseFloatOk s = false →
      parseConditionValue s = .str s) ∧
    (∀ (expr effect : String) (r : UISchemaRule), ParseRuleExpression expr effect = some r →
      ∃ p : List Char × List Char, cutChar '=' expr.data = some p ∧
        r.condConst = parseConditionValue (goTrim ⟨p.2⟩)) ∧
    parseConditionValue "1" = .b true ∧
    parseConditionValue "5" = .i 5 ∧
    parseConditionValue "5.5" = .f "5.5" ∧
    parseConditionValue "on" = .str "on" := by
  refine ⟨?_, ?_, ?_, ?_, ?_, by decide, by decide, by decide, by decide⟩
  · intro s bv h
    simp [parseConditionValue, h]
  · intro s iv h1 h2
    simp [parseConditionValue, h1, h2]
  · intro s h1 h2 h3
    simp [parseConditionValue, h1, h2, h3]
  · intro s h1 h2 h3
    simp [parseConditionValue, h1, h2, h3]
  · intro expr effect r h
    unfold ParseRuleExpression at h
    by_cases he : expr = ""
    · simp [he] at h
    · cases hc : cutChar '=' expr.data with
      | none => simp [he, hc] at h
      | some p =>
        simp only [he, if_false, hc] at h
        by_cases hf : goTrim ⟨p.1⟩ = ""
        · simp [hf] at h
        · refine ⟨p, rfl, ?_⟩
          simp only [hf, if_false] at h
          cases h
          rfl

/-- Witness for C8: the order conjuncts applied at concrete literals — `"1"`
is boolean (not integer), `"5"` is integer (not float), `"5.5"` is float. -/
theorem claim_C8_witness :
    parseConditionValue "1" = CondValue.b true ∧
    parseConditionValue "5" = CondValue.i 5 ∧
    parseConditionValue "5.5" = CondValue.f "5.5" ∧
    parseConditionValue "on" = CondValue.str "on" :=
  ⟨claim_C8.1 "1" true (by decide),
   claim_C8.2.1 "5" 5 (by decide) (by decide),
   claim_C8.2.2.1 "5.5" (by decide) (by decide) (by decide),
   claim_C8.2.2.2.1 "on" (by decide) (by decide) (by decide)⟩

/-! ## C10 — non-struct roots yield an empty layout and a nil error -/

/-- C10.  For an input whose type, after one pointer dereference, is not a
struct, the generator returns an empty `VerticalLayout` and a nil error. -/
theorem claim_C10 (t : GoType) (opts : Options)
    (h : ∀ flds : List GoField, t ≠ .structT flds ∧ t ≠ .ptr (.structT flds)) :
    GenerateUISchemaWithOptions t opts = (NewVerticalLayout, none) ∧
    (GenerateUISchemaWithOptions t opts).1.elementsOf = [] ∧
    (GenerateUISchemaWithOptions t opts).1.typeOf = "VerticalLayout" ∧
    (GenerateUISchemaWithOptions t opts).2 = none := by
  have hroot : rootUIElements t opts = [] := by
    cases t with
    | prim _ => rfl
    | timeType => rfl
    | slice _ => rfl
    | structT flds => exact absurd rfl (h flds).1
    | ptr u =>
      cases u with
      | structT flds => exact absurd rfl (h flds).2
      | prim _ => rfl
      | timeType => rfl
      | slice _ => rfl
      | ptr _ => rfl
  have hmain : GenerateUISchemaWithOptions t opts = (NewVerticalLayout, none) := by
    unfold GenerateUISchemaWithOptions
    rw [hroot]
    rfl
  refine ⟨hmain, ?_, ?_, ?_⟩ <;> rw [hmain] <;> rfl

/-- Witness for C10: a plain string root. -/
theorem claim_C10_witness :
    GenerateUISchemaWithOptions (.prim "string") {} = (NewVerticalLayout, none) :=
  (claim_C10 (.prim "string") {}
    (fun _ => ⟨fun hh => GoType.noConfusion hh, fun hh => GoType.noConfusion hh⟩)).1

/-! ## C7 — single-member units stay bare, larger units get one wrapper -/

/-- C7.  A horizontal unit with exactly one member is emitted as that member
with only its hints removed (no wrapper); a unit with two or more members is
always emitted as a single `HorizontalLayout` holding the members in collected
order.  Concretely, a lone named member next to a plain sibling stays
unwrapped. -/
theorem claim_C7 :
    (∀ m : Elem, emitCore [m] = [consumeLayoutOption m] ∧
      flushUnnamed [m] = [consumeLayoutOption m]) ∧
    (∀ ms : List Elem, 2 ≤ ms.length →
      emitCore ms = [NewHorizontalLayout.withElements (ms.map consumeLayoutOption)]) ∧
    groupHorizontalElements [cityEl, emailEl] = [cityStripped, emailEl] := by
  refine ⟨fun m => ⟨rfl, rfl⟩, ?_, rfl⟩
  intro ms h
  match ms with
  | [] => simp at h
  | [x] => simp at h
  | x :: y :: rest => rfl

/-- Witness for C7: the two-or-more branch applied to a concrete two-member
unit. -/
theorem claim_C7_witness :
    emitCore [cityEl, zipEl] =
      [NewHorizontalLayout.withElements ([cityEl, zipEl].map consumeLayoutOption)] :=
  claim_C7.2.1 [cityEl, zipEl] (by decide)

/-! ## Lemmas about the grouping walk -/

theorem optGet_del_self (k : String) (m : OptMap) : optGet k (optDel k m) = none := by
  induction m with
  | nil => rfl
  | cons p rest ih =>
    rcases p with ⟨pk, pv⟩
    by_cases hp : pk = k <;> simp [optDel, optGet, hp, ih]

theorem optGet_del_ne {k k2 : String} (h : k ≠ k2) (m : OptMap) :
    optGet k (optDel k2 m) = optGet k m := by
  induction m with
  | nil => rfl
  | cons p rest ih =>
    rcases p with ⟨pk, pv⟩
    by_cases hp : pk = k2
    · subst hp
      simp [optDel, optGet, Ne.symm h, ih]
    · by_cases hk : pk = k <;> simp [optDel, optGet, hp, hk, h, ih]

/-- A consumed element is never horizontal: its `layout` key is gone. -/
theorem consume_not_horizontal (el : Elem) :
    isHorizontalElement (consumeLayoutOption el) = false := by
  cases el with
  | mk t l i sc es opts r =>
    cases opts with
    | none => rfl
    | some m =>
      simp only [consumeLayoutOption, Elem.optionsOf, Elem.withOptions]
      by_cases he : (optDel "layoutGroup" (optDel "layout" m)).isEmpty
      · simp [he, isHorizontalElement, Elem.optionsOf]
      · simp only [he, if_false, Bool.false_eq_true]
        simp [isHorizontalElement, Elem.optionsOf,
          optGet_del_ne (show "layout" ≠ "layoutGroup" by decide), optGet_del_self]

theorem emitCore_not_horizontal (ms : List Elem) :
    ∀ y ∈ emitCore ms, isHorizontalElement y = false := by
  intro y hy
  match ms with
  | [x] =>
    simp [emitCore] at hy
    subst hy
    exact consume_not_horizontal x
  | [] =>
    simp [emitCore] at hy
    subst hy
    rfl
  | x :: x2 :: rest =>
    simp [emitCore] at hy
    subst hy
    rfl

theorem flushUnnamed_not_horizontal (ms : List Elem) :
    ∀ y ∈ flushUnnamed ms, isHorizontalElement y = false := by
  intro y hy
  unfold flushUnnamed at hy
  split at hy
  · simp at hy
  · exact emitCore_not_horizontal ms y hy

/-- Every element emitted by the grouping walk is non-horizontal. -/
theorem groupWalk_not_horizontal (all : List Elem) (todo : List Elem) :
    ∀ (pending : List Elem) (emitted : List String),
      ∀ y ∈ groupWalk all todo pending emitted, isHorizontalElement y = false := by
  induction todo with
  | nil =>
    intro pending emitted y hy
    exact flushUnnamed_not_horizontal pending y hy
  | cons el rest ih =>
    intro pending emitted y hy
    unfold groupWalk at hy
    cases hm : memberName el with
    | some g =>
      rw [hm] at hy
      rcases List.mem_append.mp hy with hy | hy
      · exact flushUnnamed_not_horizontal pending y hy
      · by_cases hg : g ∈ emitted
        · rw [if_pos hg] at hy
          exact ih [] emitted y hy
        · rw [if_neg hg] at hy
          rcases List.mem_append.mp hy with hy | hy
          · exact emitCore_not_horizontal _ y hy
          · exact ih [] (g :: emitted) y hy
    | none =>
      rw [hm] at hy
      by_cases hh : isHorizontalElement el
      · rw [if_pos hh] at hy
        exact ih (pending ++ [el]) emitted y hy
      · rw [if_neg hh] at hy
        rcases List.mem_append.mp hy with hy | hy
        · rcases List.mem_append.mp hy with hy | hy
          · exact flushUnnamed_not_horizontal pending y hy
          · have hye : y = el := List.mem_singleton.mp hy
            subst hye
            simpa using hh
        · exact ih [] emitted y hy

/-- On a list without horizontal elements the walk is the identity. -/
theorem groupWalk_id_of_no_horizontal (all : List Elem) (todo : List Elem)
    (h : ∀ x ∈ todo, isHorizontalElement x = false) :
    ∀ emitted : List String, groupWalk all todo [] emitted = todo := by
  induction todo with
  | nil => intro emitted; rfl
  | cons el rest ih =>
    intro emitted
    have hel : isHorizontalElement el = false := h el (List.mem_cons_self el rest)
    have hm : memberName el = none := by simp [memberName, hel]
    unfold groupWalk
    rw [hm, hel]
    simp only [Bool.false_eq_true, if_false]
    rw [ih (fun x hx => h x (List.mem_cons_of_mem el hx)) emitted]
    rfl

/-! ## C6 — grouping is idempotent on its own output -/

/-- C6.  Re-running the grouping pass on its own output returns it unchanged,
because grouping strips the layout hints from every consumed member and so
leaves no horizontal-marked element in its output. -/
theorem claim_C6 (xs : List Elem) :
    groupHorizontalElements (groupHorizontalElements xs) = groupHorizontalElements xs ∧
    ∀ y ∈ groupHorizontalElements xs, isHorizontalElement y = false := by
  have hout : ∀ y ∈ groupHorizontalElements xs, isHorizontalElement y = false :=
    fun y hy => groupWalk_not_horizontal xs xs [] [] y hy
  refine ⟨?_, hout⟩
  unfold groupHorizontalElements
  exact groupWalk_id_of_no_horizontal _ _ hout []

theorem withElements_typeOf (el : Elem) (es : List Elem) :
    (el.withElements es).typeOf = el.typeOf := by
  cases el; rfl

theorem withElements_labelOf (el : Elem) (es : List Elem) :
    (el.withElements es).labelOf = el.labelOf := by
  cases el; rfl

theorem withElements_elementsOf (el : Elem) (es : List Elem) :
    (el.withElements es).elementsOf = es := by
  cases el; rfl

theorem withRule_labelOf (el : Elem) (r : Option UISchemaRule) :
    (el.withRule r).labelOf = el.labelOf := by
  cases el; rfl

theorem withI18n_typeOf (el : Elem) (i : String) :
    (el.withI18n i).typeOf = el.typeOf := by
  cases el; rfl

theorem withI18n_labelOf (el : Elem) (i : String) :
    (el.withI18n i).labelOf = el.labelOf := by
  cases el; rfl

theorem withLabel_labelOf (el : Elem) (l : String) :
    (el.withLabel l).labelOf = l := by
  cases el; rfl

/-! ## C4 — named groups are emitted whole, at the first member's position -/

/-- The implementation walk (with its `emitted` set) agrees with the
positional walk (which instead asks whether a member of the group occurred in
the processed prefix), whenever the `emitted` set records exactly the group
names with a member in the prefix. -/
theorem groupWalk_eq_specWalk (all : List Elem) (todo : List Elem) :
    ∀ (done pending : List Elem) (emitted : List String),
      (∀ g : String, g ∈ emitted ↔ ∃ x ∈ done, memberName x = some g) →
      groupWalk all todo pending emitted = groupSpecWalk all todo done pending := by
  induction todo with
  | nil => intro done pending emitted hinv; rfl
  | cons el rest ih =>
    intro done pending emitted hinv
    unfold groupWalk groupSpecWalk
    cases hm : memberName el with
    | some g =>
      dsimp only
      by_cases hg : ∃ x ∈ done, memberName x = some g
      · rw [if_pos ((hinv g).mpr hg), if_pos hg]
        congr 1
        apply ih
        intro g2
        rw [hinv g2]
        constructor
        · rintro ⟨x, hx, hxm⟩
          exact ⟨x, List.mem_append_left _ hx, hxm⟩
        · rintro ⟨x, hx, hxm⟩
          rcases List.mem_append.mp hx with hx | hx
          · exact ⟨x, hx, hxm⟩
          · have hxe : x = el := List.mem_singleton.mp hx
            subst hxe
            rw [hm] at hxm
            cases hxm
            exact hg
      · rw [if_neg (fun hmem => hg ((hinv g).mp hmem)), if_neg hg]
        congr 2
        apply ih
        intro g2
        constructor
        · intro hmem
          rcases List.mem_cons.mp hmem with hgg | hmem
          · subst hgg
            exact ⟨el, List.mem_append_right _ (List.mem_singleton.mpr rfl), hm⟩
          · rcases (hinv g2).mp hmem with ⟨x, hx, hxm⟩
            exact ⟨x, List.mem_append_left _ hx, hxm⟩
        · rintro ⟨x, hx, hxm⟩
          rcases List.mem_append.mp hx with hx | hx
          · exact List.mem_cons_of_mem _ ((hinv g2).mpr ⟨x, hx, hxm⟩)
          · have hxe : x = el := List.mem_singleton.mp hx
            subst hxe
            rw [hm] at hxm
            cases hxm
            exact List.mem_cons_self _ _
    | none =>
      dsimp only
      have hstep : ∀ g2 : String, g2 ∈ emitted ↔ ∃ x ∈ done ++ [el], memberName x = some g2 := by
        intro g2
        rw [hinv g2]
        constructor
        · rintro ⟨x, hx, hxm⟩
          exact ⟨x, List.mem_append_left _ hx, hxm⟩
        · rintro ⟨x, hx, hxm⟩
          rcases List.mem_append.mp hx with hx | hx
          · exact ⟨x, hx, hxm⟩
          · have hxe : x = el := List.mem_singleton.mp hx
            subst hxe
            rw [hm] at hxm
            cases hxm
      by_cases hh : isHorizontalElement el
      · rw [if_pos hh, if_pos hh]
        exact ih _ _ _ hstep
      · rw [if_neg hh, if_neg hh]
        congr 2
        exact ih _ _ _ hstep

/-- C4.  The grouping pass equals its positional description: each named
group's entire bucket (all members in original order) is emitted as one unit
exactly where the group's first member occurs, and later occurrences of
members of an already-emitted group emit nothing of their own.  Concretely,
`[city(horiz,"addr"), email(plain), zip(horiz,"addr")]` yields
`[HorizontalLayout[city,zip], email]`. -/
theorem claim_C4 :
    (∀ es : List Elem, groupHorizontalElements es = groupSpec es) ∧
    groupHorizontalElements [cityEl, emailEl, zipEl] =
      [NewHorizontalLayout.withElements [cityStripped, zipStripped], emailEl] := by
  refine ⟨?_, rfl⟩
  intro es
  unfold groupHorizontalElements groupSpec
  exact groupWalk_eq_specWalk es es [] [] []
    (fun g => ⟨fun hmem => absurd hmem (List.not_mem_nil g),
               fun hex => absurd hex (by simp)⟩)

/-! ## Lemmas about the categorization buckets -/

theorem addToBuckets_map_fst (acc : List (String × List Elem)) (n : String) (x : Elem) :
    (addToBuckets acc n x).map Prod.fst =
      if n ∈ acc.map Prod.fst then acc.map Prod.fst else acc.map Prod.fst ++ [n] := by
  induction acc with
  | nil => simp [addToBuckets]
  | cons q rest ih =>
    rcases q with ⟨n0, xs⟩
    by_cases h0 : n0 = n
    · subst h0
      simp [addToBuckets]
    · simp only [addToBuckets, if_neg h0, List.map_cons]
      rw [ih]
      by_cases hmem : n ∈ rest.map Prod.fst
      · simp [hmem, Ne.symm h0]
      · simp [hmem, Ne.symm h0]

theorem getBucket_cons (n0 : String) (xs : List Elem) (rest : List (String × List Elem))
    (m : String) :
    getBucket ((n0, xs) :: rest) m = if n0 = m then xs else getBucket rest m := by
  by_cases h : n0 = m <;> simp [getBucket, lookupAssoc, h]

theorem getBucket_addToBuckets (acc : List (String × List Elem)) (n : String) (x : Elem)
    (m : String) :
    getBucket (addToBuckets acc n x) m =
      getBucket acc m ++ (if n = m then [x] else []) := by
  induction acc with
  | nil =>
    by_cases h : n = m <;> simp [addToBuckets, getBucket, lookupAssoc, h]
  | cons q rest ih =>
    rcases q with ⟨n0, xs⟩
    by_cases h0 : n0 = n
    · subst h0
      rw [addToBuckets, if_pos rfl, getBucket_cons, getBucket_cons]
      by_cases hm : n0 = m
      · subst hm
        simp
      · simp [hm]
    · rw [addToBuckets, if_neg h0, getBucket_cons, getBucket_cons]
      by_cases hm : n0 = m
      · subst hm
        have hnm : ¬ n = n0 := fun hh => h0 hh.symm
        simp [hnm]
      · simp [hm, ih]

theorem dedupFOAux_congr (s1 s2 l : List String) (h : ∀ x, x ∈ s1 ↔ x ∈ s2) :
    dedupFOAux s1 l = dedupFOAux s2 l := by
  induction l generalizing s1 s2 with
  | nil => rfl
  | cons n ns ih =>
    by_cases hn : n ∈ s1
    · rw [dedupFOAux, dedupFOAux, if_pos hn, if_pos ((h n).mp hn)]
      exact ih s1 s2 h
    · rw [dedupFOAux, dedupFOAux, if_neg hn, if_neg (fun hh => hn ((h n).mpr hh))]
      refine congrArg (n :: ·) (ih (n :: s1) (n :: s2) ?_)
      intro x
      rw [List.mem_cons, List.mem_cons, h x]

theorem collectAux_map_fst (es : List Elem) :
    ∀ acc : List (String × List Elem),
      (collectAux es acc).map Prod.fst =
        acc.map Prod.fst ++ dedupFOAux (acc.map Prod.fst) (es.map catNameOf) := by
  induction es with
  | nil => intro acc; simp [collectAux, dedupFOAux]
  | cons el rest ih =>
    intro acc
    rw [collectAux, List.map_cons, dedupFOAux]
    have hn : (catNameConsume el).1 = catNameOf el := rfl
    by_cases hmem : catNameOf el ∈ acc.map Prod.fst
    · rw [if_pos hmem, ih]
      rw [addToBuckets_map_fst, hn, if_pos hmem]
    · rw [if_neg hmem, ih]
      rw [addToBuckets_map_fst, hn, if_neg hmem]
      rw [dedupFOAux_congr (acc.map Prod.fst ++ [catNameOf el]) (catNameOf el :: acc.map Prod.fst)
        (rest.map catNameOf)
        (fun x => by rw [List.mem_append, List.mem_singleton, List.mem_cons]; tauto)]
      rw [List.append_assoc, List.singleton_append]

theorem collectAux_getBucket (es : List Elem) :
    ∀ (acc : List (String × List Elem)) (m : String),
      getBucket (collectAux es acc) m =
        getBucket acc m ++
          (es.filter (fun el => decide (catNameOf el = m))).map consumeCategoryOption := by
  induction es with
  | nil => intro acc m; simp [collectAux]
  | cons el rest ih =>
    intro acc m
    rw [collectAux, ih, getBucket_addToBuckets]
    have hn : (catNameConsume el).1 = catNameOf el := rfl
    have hx : (catNameConsume el).2 = consumeCategoryOption el := rfl
    rw [hn, hx, List.filter_cons]
    by_cases hm : catNameOf el = m
    · simp [hm]
    · simp [hm]

/-- Every bucket name produced by the collection is non-empty (`"Other"` or a
non-empty category string). -/
theorem catNameOf_ne_empty (el : Elem) : catNameOf el ≠ "" := by
  cases hopt : el.optionsOf with
  | none => simp [catNameOf, catNameConsume, hopt]
  | some m =>
    cases hget : optGet "category" m with
    | none => simp [catNameOf, catNameConsume, hopt, hget]
    | some v =>
      cases v with
      | s c =>
        by_cases hc : c = ""
        · simp [catNameOf, catNameConsume, hopt, hget, hc]
        · simp [catNameOf, catNameConsume, hopt, hget, hc]
      | b bv => simp [catNameOf, catNameConsume, hopt, hget]
      | el e => simp [catNameOf, catNameConsume, hopt, hget]

theorem addToBuckets_fst_ne_empty (acc : List (String × List Elem)) (n : String) (x : Elem)
    (hacc : ∀ q ∈ acc, q.1 ≠ "") (hn : n ≠ "") :
    ∀ q ∈ addToBuckets acc n x, q.1 ≠ "" := by
  induction acc with
  | nil =>
    intro q hq
    rcases List.mem_singleton.mp hq with rfl
    exact hn
  | cons q0 rest ih =>
    rcases q0 with ⟨n0, xs⟩
    intro q hq
    by_cases h0 : n0 = n
    · subst h0
      rw [addToBuckets, if_pos rfl] at hq
      rcases List.mem_cons.mp hq with rfl | hq
      · exact hacc (n0, xs) (List.mem_cons_self _ _)
      · exact hacc q (List.mem_cons_of_mem _ hq)
    · rw [addToBuckets, if_neg h0] at hq
      rcases List.mem_cons.mp hq with rfl | hq
      · exact hacc (n0, xs) (List.mem_cons_self _ _)
      · exact ih (fun r hr => hacc r (List.mem_cons_of_mem _ hr)) q hq

theorem collectAux_fst_ne_empty (es : List Elem) :
    ∀ acc : List (String × List Elem), (∀ q ∈ acc, q.1 ≠ "") →
      ∀ p ∈ collectAux es acc, p.1 ≠ "" := by
  induction es with
  | nil => intro acc hacc p hp; exact hacc p hp
  | cons el rest ih =>
    intro acc hacc p hp
    rw [collectAux] at hp
    exact ih _ (addToBuckets_fst_ne_empty acc _ _ hacc (catNameOf_ne_empty el)) p hp

theorem extractCategoryRule_typeOf (cat : Elem) :
    (extractCategoryRule cat).typeOf = cat.typeOf := by
  unfold extractCategoryRule
  cases scanCategoryRule cat.elementsOf with
  | none => rfl
  | some p => simp [withRule_typeOf, withElements_typeOf]

theorem extractCategoryRule_labelOf (cat : Elem) :
    (extractCategoryRule cat).labelOf = cat.labelOf := by
  unfold extractCategoryRule
  cases scanCategoryRule cat.elementsOf with
  | none => rfl
  | some p => simp [withRule_labelOf, withElements_labelOf]

theorem extractCategoryI18n_typeOf (cat : Elem) (opts : Options) :
    (extractCategoryI18n cat opts).typeOf = cat.typeOf := by
  unfold extractCategoryI18n
  cases scanCategoryI18n cat.elementsOf with
  | none => rfl
  | some p => simp [withLabel_typeOf, withI18n_typeOf, withElements_typeOf]

/-- Without a translator, lifting an i18n hint onto a Category leaves a
non-empty label unchanged. -/
theorem extractCategoryI18n_labelOf (cat : Elem) (opts : Options)
    (htr : opts.translator = none) (hlab : cat.labelOf ≠ "") :
    (extractCategoryI18n cat opts).labelOf = cat.labelOf := by
  unfold extractCategoryI18n
  cases scanCategoryI18n cat.elementsOf with
  | none => rfl
  | some p =>
    simp only [withLabel_labelOf]
    unfold translateLabel
    rw [htr]
    simp [hlab]

theorem finishCategory_typeOf (opts : Options) (p : String × List Elem) :
    (finishCategory opts p).typeOf = "Category" := by
  unfold finishCategory
  rw [extractCategoryI18n_typeOf, extractCategoryRule_typeOf, withElements_typeOf]
  rfl

theorem finishCategory_labelOf (opts : Options) (p : String × List Elem)
    (htr : opts.translator = none) (hp : p.1 ≠ "") :
    (finishCategory opts p).labelOf = p.1 := by
  unfold finishCategory
  rw [extractCategoryI18n_labelOf _ _ htr, extractCategoryRule_labelOf, withElements_labelOf]
  · rfl
  · rw [extractCategoryRule_labelOf, withElements_labelOf]
    exact hp

/-! ## C5 — bucketing with the `"Other"` default, in first-occurrence order -/

/-- C5.  A sibling without a non-empty `category` hint lands in the `"Other"`
bucket; buckets become Category children of the Categorization root in strict
first-occurrence order of their names (with `"Other"` participating like any
other name, not forced to the end), and each bucket holds exactly the
siblings mapped to it, in order, with their hint consumed. -/
theorem claim_C5 (es : List Elem) (opts : Options) (htr : opts.translator = none) :
    ((collectBuckets es).map Prod.fst = dedupFOAux [] (es.map catNameOf)) ∧
    (∀ n : String, getBucket (collectBuckets es) n =
      (es.filter (fun el => decide (catNameOf el = n))).map consumeCategoryOption) ∧
    (buildCategorization es opts).typeOf = "Categorization" ∧
    ((buildCategorization es opts).elementsOf.map Elem.typeOf =
      (collectBuckets es).map (fun _ => "Category")) ∧
    ((buildCategorization es opts).elementsOf.map Elem.labelOf =
      (collectBuckets es).map Prod.fst) := by
  refine ⟨?_, ?_, ?_, ?_, ?_⟩
  · have h := collectAux_map_fst es []
    simpa [collectBuckets] using h
  · intro n
    have h := collectAux_getBucket es [] n
    simpa [collectBuckets, getBucket, lookupAssoc] using h
  · unfold buildCategorization
    rw [withElements_typeOf]
    rfl
  · unfold buildCategorization
    rw [withElements_elementsOf, List.map_map]
    exact List.map_congr_left (fun p _ => finishCategory_typeOf opts p)
  · unfold buildCategorization
    rw [withElements_elementsOf, List.map_map]
    exact List.map_congr_left
      (fun p hp => finishCategory_labelOf opts p htr
        (collectAux_fst_ne_empty es [] (fun q hq => absurd hq (List.not_mem_nil q)) p hp))

/-- Witness for C5: an uncategorized sibling ahead of a categorized one — the
`"Other"` bucket is created first and stays first. -/
theorem claim_C5_witness :
    ((collectBuckets [emailEl, catXEl]).map Prod.fst =
      dedupFOAux [] ([emailEl, catXEl].map catNameOf)) ∧
    dedupFOAux [] ([emailEl, catXEl].map catNameOf) = ["Other", "X"] :=
  ⟨(claim_C5 [emailEl, catXEl] {} rfl).1, by decide⟩

/-! ## C3 — where categorization runs relative to grouping

The source checks for category hints and, when any are present, partitions
the *ungrouped* root sibling list; horizontal grouping then runs inside each
bucket.  Root-level grouping runs only on the uncategorized path. -/

/-- Counterexample to C3 as stated: on `catMixType` (two adjacent unnamed
horizontal controls, the first categorized) the code produces the two buckets
`X` and `Other`, whereas partitioning the output of root-level grouping would
merge both controls into one `HorizontalLayout` (which carries no category
key) and produce the single bucket `Other`. -/
theorem claim_C3_counterexample :
    ((GenerateUISchemaWithOptions catMixType {}).1.elementsOf.map Elem.labelOf =
      ["X", "Other"]) ∧
    ((buildCategorization (groupHorizontalElements (rootUIElements catMixType {}))
        {}).elementsOf.map Elem.labelOf = ["Other"]) ∧
    GenerateUISchemaWithOptions catMixType {} ≠
      (buildCategorization (groupHorizontalElements (rootUIElements catMixType {})) {},
        none) := by
  refine ⟨by decide, by decide, ?_⟩
  intro h
  have h2 := congrArg (fun p => p.1.elementsOf.map Elem.labelOf) h
  exact absurd h2 (by decide)

/-- C3, amended.  Categorization is applied exactly once, directly to the
root sibling list produced by the Node Builder (not to its grouped form);
horizontal grouping is applied inside each category bucket instead, and the
root list itself is grouped only on the uncategorized path. -/
theorem claim_C3_amended (t : GoType) (opts : Options) :
    (hasCategorizedElements (rootUIElements t opts) = true →
      GenerateUISchemaWithOptions t opts =
        (buildCategorization (rootUIElements t opts) opts, none)) ∧
    (hasCategorizedElements (rootUIElements t opts) = false →
      GenerateUISchemaWithOptions t opts =
        (NewVerticalLayout.withElements
          (groupHorizontalElements (rootUIElements t opts)), none)) := by
  constructor
  · intro h
    simp [GenerateUISchemaWithOptions, h]
  · intro h
    simp [GenerateUISchemaWithOptions, h]

/-- Witness for the amended C3 at the concrete categorized input. -/
theorem claim_C3_amended_witness :
    GenerateUISchemaWithOptions catMixType {} =
      (buildCategorization (rootUIElements catMixType {}) {}, none) :=
  (claim_C3_amended catMixType {}).1 (by decide)

/-! ## Option-lookup lemmas for the control-building steps -/

theorem optGet_set_self (k : String) (v : OptVal) (m : OptMap) :
    optGet k (optSet k v m) = some v := by
  induction m with
  | nil => simp [optSet, optGet]
  | cons p rest ih =>
    rcases p with ⟨pk, pv⟩
    by_cases hp : pk = k <;> simp [optSet, optGet, hp, ih]

theorem optGet_set_ne {k k2 : String} (h : k ≠ k2) (v : OptVal) (m : OptMap) :
    optGet k (optSet k2 v m) = optGet k m := by
  induction m with
  | nil => simp [optSet, optGet, Ne.symm h]
  | cons p rest ih =>
    rcases p with ⟨pk, pv⟩
    by_cases hp : pk = k2
    · subst hp
      simp [optSet, optGet, Ne.symm h]
    · by_cases hk : pk = k <;> simp [optSet, optGet, hp, hk, h, ih]

theorem elGet_setOption_self (el : Elem) (k : String) (v : OptVal) :
    elGet (setOption el k v) k = some v := by
  cases el with
  | mk t l i sc es opts r =>
    cases opts <;> simp [setOption, elGet, Elem.optionsOf, Elem.withOptions, optGet_set_self]

theorem elGet_setOption_ne (el : Elem) {k k2 : String} (h : k ≠ k2) (v : OptVal) :
    elGet (setOption el k2 v) k = elGet el k := by
  cases el with
  | mk t l i sc es opts r =>
    cases opts <;>
      simp [setOption, elGet, Elem.optionsOf, Elem.withOptions, optGet_set_ne h, optGet,
        Ne.symm h]

theorem elGet_withLabel (el : Elem) (l : String) (k : String) :
    elGet (el.withLabel l) k = elGet el k := by
  cases el; rfl

theorem elGet_withRule (el : Elem) (r : Option UISchemaRule) (k : String) :
    elGet (el.withRule r) k = elGet el k := by
  cases el; rfl

theorem elGet_applyRule (el : Elem) (tags : FieldTags) (k : String) :
    elGet (applyRule el tags) k = elGet el k := by
  unfold applyRule
  split_ifs <;> simp [elGet_withRule]

theorem elGet_applyCategoryRuleOptions (el : Elem) (fo : FormOptions) {k : String}
    (h1 : k ≠ "categoryRuleEffect") (h2 : k ≠ "categoryRuleExpr") :
    elGet (applyCategoryRuleOptions el fo) k = elGet el k := by
  unfold applyCategoryRuleOptions
  split_ifs <;> simp_all [elGet_setOption_ne _ h1, elGet_setOption_ne _ h2]

theorem elGet_applyCategoryI18nOption (el : Elem) (fo : FormOptions) {k : String}
    (h : k ≠ "categoryI18n") :
    elGet (applyCategoryI18nOption el fo) k = elGet el k := by
  unfold applyCategoryI18nOption
  split_ifs <;> simp [elGet_setOption_ne _ h]

theorem elGet_controlLabelStep (scope lab k : String) :
    elGet (controlLabelStep scope lab) k = none := by
  unfold controlLabelStep
  split_ifs
  · rw [elGet_withLabel]; rfl
  · rfl

theorem elGet_controlCategoryStep (c : Elem) (fo : FormOptions) {k : String}
    (h : k ≠ "category") :
    elGet (controlCategoryStep c fo) k = elGet c k := by
  unfold controlCategoryStep
  split_ifs <;> simp [elGet_setOption_ne _ h]

theorem elGet_controlReadonlyStep (c : Elem) (ro ml : Bool) {k : String}
    (h1 : k ≠ "readonly") (h2 : k ≠ "multi") :
    elGet (controlReadonlyStep c ro ml) k = elGet c k := by
  unfold controlReadonlyStep
  split_ifs <;> simp [elGet_setOption_ne _ h1, elGet_setOption_ne _ h2]

theorem elGet_controlRendererStep (c : Elem) (rend : String) {k : String}
    (h : k ≠ "renderer") :
    elGet (controlRendererStep c rend) k = elGet c k := by
  unfold controlRendererStep
  split_ifs <;> simp [elGet_setOption_ne _ h]

/-- `buildControl` writes only its seven known option keys; any other key is
absent on the result. -/
theorem buildControl_elGet_none (scope name : String) (fo : FormOptions) (tags : FieldTags)
    (opts : Options) {k : String}
    (h1 : k ≠ "category") (h2 : k ≠ "readonly") (h3 : k ≠ "multi") (h4 : k ≠ "renderer")
    (h5 : k ≠ "categoryRuleEffect") (h6 : k ≠ "categoryRuleExpr") (h7 : k ≠ "categoryI18n") :
    elGet (buildControl scope name fo tags opts) k = none := by
  unfold buildControl
  rw [elGet_applyCategoryI18nOption _ _ h7, elGet_applyCategoryRuleOptions _ _ h5 h6,
    elGet_applyRule, elGet_controlRendererStep _ _ h4, elGet_controlReadonlyStep _ _ _ h2 h3,
    elGet_controlCategoryStep _ _ h1, elGet_controlLabelStep]

theorem applyRule_typeOf (el : Elem) (tags : FieldTags) :
    (applyRule el tags).typeOf = el.typeOf := by
  unfold applyRule
  split_ifs <;> simp [withRule_typeOf]

theorem applyRule_scopeOf (el : Elem) (tags : FieldTags) :
    (applyRule el tags).scopeOf = el.scopeOf := by
  unfold applyRule
  split_ifs <;> simp [withRule_scopeOf]

theorem applyRule_elementsOf (el : Elem) (tags : FieldTags) :
    (applyRule el tags).elementsOf = el.elementsOf := by
  unfold applyRule
  split_ifs <;> simp [withRule_elementsOf]

theorem applyCategoryRuleOptions_typeOf (el : Elem) (fo : FormOptions) :
    (applyCategoryRuleOptions el fo).typeOf = el.typeOf := by
  unfold applyCategoryRuleOptions
  split_ifs <;> simp_all [setOption_typeOf]

theorem applyCategoryRuleOptions_scopeOf (el : Elem) (fo : FormOptions) :
    (applyCategoryRuleOptions el fo).scopeOf = el.scopeOf := by
  unfold applyCategoryRuleOptions
  split_ifs <;> simp_all [setOption_scopeOf]

theorem applyCategoryRuleOptions_elementsOf (el : Elem) (fo : FormOptions) :
    (applyCategoryRuleOptions el fo).elementsOf = el.elementsOf := by
  unfold applyCategoryRuleOptions
  split_ifs <;> simp_all [setOption_elementsOf]

theorem applyCategoryI18nOption_typeOf (el : Elem) (fo : FormOptions) :
    (applyCategoryI18nOption el fo).typeOf = el.typeOf := by
  unfold applyCategoryI18nOption
  split_ifs <;> simp [setOption_typeOf]

theorem applyCategoryI18nOption_scopeOf (el : Elem) (fo : FormOptions) :
    (applyCategoryI18nOption el fo).scopeOf = el.scopeOf := by
  unfold applyCategoryI18nOption
  split_ifs <;> simp [setOption_scopeOf]

theorem applyCategoryI18nOption_elementsOf (el : Elem) (fo : FormOptions) :
    (applyCategoryI18nOption el fo).elementsOf = el.elementsOf := by
  unfold applyCategoryI18nOption
  split_ifs <;> simp [setOption_elementsOf]

theorem controlCategoryStep_typeOf (c : Elem) (fo : FormOptions) :
    (controlCategoryStep c fo).typeOf = c.typeOf := by
  unfold controlCategoryStep
  split_ifs <;> simp [setOption_typeOf]

theorem controlReadonlyStep_typeOf (c : Elem) (ro ml : Bool) :
    (controlReadonlyStep c ro ml).typeOf = c.typeOf := by
  unfold controlReadonlyStep
  split_ifs <;> simp [setOption_typeOf]

theorem controlRendererStep_typeOf (c : Elem) (rend : String) :
    (controlRendererStep c rend).typeOf = c.typeOf := by
  unfold controlRendererStep
  split_ifs <;> simp [setOption_typeOf]

theorem controlCategoryStep_scopeOf (c : Elem) (fo : FormOptions) :
    (controlCategoryStep c fo).scopeOf = c.scopeOf := by
  unfold controlCategoryStep
  split_ifs <;> simp [setOption_scopeOf]

theorem controlReadonlyStep_scopeOf (c : Elem) (ro ml : Bool) :
    (controlReadonlyStep c ro ml).scopeOf = c.scopeOf := by
  unfold controlReadonlyStep
  split_ifs <;> simp [setOption_scopeOf]

theorem controlRendererStep_scopeOf (c : Elem) (rend : String) :
    (controlRendererStep c rend).scopeOf = c.scopeOf := by
  unfold controlRendererStep
  split_ifs <;> simp [setOption_scopeOf]

theorem controlCategoryStep_elementsOf (c : Elem) (fo : FormOptions) :
    (controlCategoryStep c fo).elementsOf = c.elementsOf := by
  unfold controlCategoryStep
  split_ifs <;> simp [setOption_elementsOf]

theorem controlReadonlyStep_elementsOf (c : Elem) (ro ml : Bool) :
    (controlReadonlyStep c ro ml).elementsOf = c.elementsOf := by
  unfold controlReadonlyStep
  split_ifs <;> simp [setOption_elementsOf]

theorem controlRendererStep_elementsOf (c : Elem) (rend : String) :
    (controlRendererStep c rend).elementsOf = c.elementsOf := by
  unfold controlRendererStep
  split_ifs <;> simp [setOption_elementsOf]

theorem controlLabelStep_typeOf (scope lab : String) :
    (controlLabelStep scope lab).typeOf = "Control" := by
  unfold controlLabelStep
  split_ifs
  · rw [withLabel_typeOf]; rfl
  · rfl

theorem controlLabelStep_scopeOf (scope lab : String) :
    (controlLabelStep scope lab).scopeOf = scope := by
  unfold controlLabelStep
  split_ifs
  · rw [withLabel_scopeOf]; rfl
  · rfl

theorem controlLabelStep_elementsOf (scope lab : String) :
    (controlLabelStep scope lab).elementsOf = [] := by
  unfold controlLabelStep
  split_ifs
  · rw [withLabel_elementsOf]; rfl
  · rfl

theorem buildControl_typeOf (scope name : String) (fo : FormOptions) (tags : FieldTags)
    (opts : Options) : (buildControl scope name fo tags opts).typeOf = "Control" := by
  unfold buildControl
  rw [applyCategoryI18nOption_typeOf, applyCategoryRuleOptions_typeOf, applyRule_typeOf,
    controlRendererStep_typeOf, controlReadonlyStep_typeOf, controlCategoryStep_typeOf,
    controlLabelStep_typeOf]

theorem buildControl_scopeOf (scope name : String) (fo : FormOptions) (tags : FieldTags)
    (opts : Options) : (buildControl scope name fo tags opts).scopeOf = scope := by
  unfold buildControl
  rw [applyCategoryI18nOption_scopeOf, applyCategoryRuleOptions_scopeOf, applyRule_scopeOf,
    controlRendererStep_scopeOf, controlReadonlyStep_scopeOf, controlCategoryStep_scopeOf,
    controlLabelStep_scopeOf]

theorem buildControl_elementsOf (scope name : String) (fo : FormOptions) (tags : FieldTags)
    (opts : Options) : (buildControl scope name fo tags opts).elementsOf = [] := by
  unfold buildControl
  rw [applyCategoryI18nOption_elementsOf, applyCategoryRuleOptions_elementsOf,
    applyRule_elementsOf, controlRendererStep_elementsOf, controlReadonlyStep_elementsOf,
    controlCategoryStep_elementsOf, controlLabelStep_elementsOf]

/-- On an element without `layout` key, `isHorizontalElement` is false. -/
theorem isHorizontal_of_elGet_layout_none (el : Elem) (h : elGet el "layout" = none) :
    isHorizontalElement el = false := by
  cases el with
  | mk t l i sc es opts r =>
    cases opts with
    | none => rfl
    | some m =>
      simp only [elGet, Elem.optionsOf] at h
      simp [isHorizontalElement, Elem.optionsOf, h]

theorem annotateLayout_of_not_horizontal (c : Elem) (fo : FormOptions)
    (h : fo.layout ≠ "horizontal") : annotateLayout c fo = c := by
  unfold annotateLayout
  rw [if_neg h]

theorem elGet_annotateLayout (c : Elem) (fo : FormOptions) {k : String}
    (h1 : k ≠ "layout") (h2 : k ≠ "layoutGroup") :
    elGet (annotateLayout c fo) k = elGet c k := by
  unfold annotateLayout
  split_ifs <;> simp [elGet_setOption_ne _ h1, elGet_setOption_ne _ h2]

theorem annotateLayout_typeOf (c : Elem) (fo : FormOptions) :
    (annotateLayout c fo).typeOf = c.typeOf := by
  unfold annotateLayout
  split_ifs <;> simp [setOption_typeOf]

theorem annotateLayout_scopeOf (c : Elem) (fo : FormOptions) :
    (annotateLayout c fo).scopeOf = c.scopeOf := by
  unfold annotateLayout
  split_ifs <;> simp [setOption_scopeOf]

theorem getDetail_eq_elGet (el : Elem) :
    getDetail el =
      (match elGet el "detail" with
       | some (.el e) => some e
       | _ => none) := by
  cases el with
  | mk t l i sc es opts r => cases opts <;> rfl

theorem getDetail_of_elGet_none (el : Elem) (h : elGet el "detail" = none) :
    getDetail el = none := by
  rw [getDetail_eq_elGet, h]

theorem plainControlFor_typeOf (basePath : String) (opts : Options) (f : GoField) :
    (plainControlFor basePath opts f).typeOf = "Control" := by
  unfold plainControlFor
  rw [annotateLayout_typeOf, buildControl_typeOf]

theorem plainControlFor_scopeOf (basePath : String) (opts : Options) (f : GoField) :
    (plainControlFor basePath opts f).scopeOf = basePath ++ "/" ++ f.jsonNameOf := by
  unfold plainControlFor
  rw [annotateLayout_scopeOf, buildControl_scopeOf]

theorem plainControlFor_getDetail (basePath : String) (opts : Options) (f : GoField) :
    getDetail (plainControlFor basePath opts f) = none := by
  unfold plainControlFor
  apply getDetail_of_elGet_none
  rw [elGet_annotateLayout _ _ (by decide) (by decide)]
  exact buildControl_elGet_none _ _ _ _ _ (by decide) (by decide) (by decide) (by decide)
    (by decide) (by decide) (by decide)

theorem plainControlFor_not_horizontal (basePath : String) (opts : Options) (f : GoField)
    (h : f.foOf.layout ≠ "horizontal") :
    isHorizontalElement (plainControlFor basePath opts f) = false := by
  unfold plainControlFor
  rw [annotateLayout_of_not_horizontal _ _ h]
  exact isHorizontal_of_elGet_layout_none _
    (buildControl_elGet_none _ _ _ _ _ (by decide) (by decide) (by decide) (by decide)
      (by decide) (by decide) (by decide))

theorem buildUIElements_cons (f : GoField) (rest : List GoField) (basePath : String)
    (opts : Options) :
    buildUIElements (f :: rest) basePath opts =
      buildUIField f basePath opts ++ buildUIElements rest basePath opts := rfl

theorem buildUIField_unexported (goN n : String) (fo : FormOptions) (tags : FieldTags)
    (ty : GoType) (basePath : String) (opts : Options) :
    buildUIField (.mk goN n false fo tags ty) basePath opts = [] := by
  rw [buildUIField.eq_def]
  simp

theorem buildUIField_dashName (goN : String) (fo : FormOptions) (tags : FieldTags)
    (ty : GoType) (basePath : String) (opts : Options) :
    buildUIField (.mk goN "-" true fo tags ty) basePath opts = [] := by
  rw [buildUIField.eq_def]
  simp

theorem buildUIField_hidden (goN n : String) (fo : FormOptions) (tags : FieldTags)
    (ty : GoType) (basePath : String) (opts : Options)
    (hn : n ≠ "-") (hh : isFieldHidden n fo opts = true) :
    buildUIField (.mk goN n true fo tags ty) basePath opts = [] := by
  rw [buildUIField.eq_def]
  simp [hn, hh]

/-- An invisible field (unexported, `json:"-"`, or hidden) builds nothing. -/
theorem buildUIField_invisible (f : GoField) (basePath : String) (opts : Options)
    (h : fieldVisible f opts = false) :
    buildUIField f basePath opts = [] := by
  rcases f with ⟨goN, n, ex, fo, tags, ty⟩
  cases ex with
  | false => exact buildUIField_unexported goN n fo tags ty basePath opts
  | true =>
    rcases eq_or_ne n "-" with hn | hn
    · subst hn
      exact buildUIField_dashName goN fo tags ty basePath opts
    · have hh : isFieldHidden n fo opts = true := by
        simp [fieldVisible, GoField.exportedOf, GoField.jsonNameOf, GoField.foOf, hn] at h
        exact h
      exact buildUIField_hidden goN n fo tags ty basePath opts hn hh

/-- A visible field of a plain type takes the Control branch of the node
builder. -/
theorem buildUIField_plain (f : GoField) (basePath : String) (opts : Options)
    (hty : isPlainTy f.tyOf = true) (hv : fieldVisible f opts = true) :
    buildUIField f basePath opts = [plainControlFor basePath opts f] := by
  rcases f with ⟨goN, n, ex, fo, tags, ty⟩
  have hex : ex = true := by
    cases ex
    · simp [fieldVisible, GoField.exportedOf] at hv
    · rfl
  subst hex
  have hn : ¬ n = "-" := by
    intro hn
    simp [fieldVisible, GoField.exportedOf, GoField.jsonNameOf, hn] at hv
  have hh : isFieldHidden n fo opts = false := by
    simp [fieldVisible, GoField.exportedOf, GoField.jsonNameOf, GoField.foOf, hn] at hv
    exact hv
  simp only [GoField.tyOf] at hty
  rw [buildUIField.eq_def]
  cases ty with
  | prim pk =>
    simp [hn, hh, plainControlFor, GoField.jsonNameOf, GoField.foOf, GoField.tagsOf]
  | timeType =>
    simp [hn, hh, plainControlFor, GoField.jsonNameOf, GoField.foOf, GoField.tagsOf]
  | structT flds => simp [isPlainTy] at hty
  | slice u =>
    cases u with
    | structT eflds => simp [isPlainTy] at hty
    | ptr v =>
      cases v with
      | structT eflds => simp [isPlainTy] at hty
      | prim pk =>
        simp [hn, hh, plainControlFor, GoField.jsonNameOf, GoField.foOf, GoField.tagsOf]
      | timeType =>
        simp [hn, hh, plainControlFor, GoField.jsonNameOf, GoField.foOf, GoField.tagsOf]
      | ptr w =>
        simp [hn, hh, plainControlFor, GoField.jsonNameOf, GoField.foOf, GoField.tagsOf]
      | slice w =>
        simp [hn, hh, plainControlFor, GoField.jsonNameOf, GoField.foOf, GoField.tagsOf]
    | prim pk =>
      simp [hn, hh, plainControlFor, GoField.jsonNameOf, GoField.foOf, GoField.tagsOf]
    | timeType =>
      simp [hn, hh, plainControlFor, GoField.jsonNameOf, GoField.foOf, GoField.tagsOf]
    | slice w =>
      simp [hn, hh, plainControlFor, GoField.jsonNameOf, GoField.foOf, GoField.tagsOf]
  | ptr u =>
    cases u with
    | structT flds => simp [isPlainTy] at hty
    | prim pk =>
      simp [hn, hh, plainControlFor, GoField.jsonNameOf, GoField.foOf, GoField.tagsOf]
    | timeType =>
      simp [hn, hh, plainControlFor, GoField.jsonNameOf, GoField.foOf, GoField.tagsOf]
    | ptr w =>
      simp [hn, hh, plainControlFor, GoField.jsonNameOf, GoField.foOf, GoField.tagsOf]
    | slice v =>
      cases v with
      | structT eflds => simp [isPlainTy] at hty
      | ptr w =>
        cases w with
        | structT eflds => simp [isPlainTy] at hty
        | prim pk =>
          simp [hn, hh, plainControlFor, GoField.jsonNameOf, GoField.foOf, GoField.tagsOf]
        | timeType =>
          simp [hn, hh, plainControlFor, GoField.jsonNameOf, GoField.foOf, GoField.tagsOf]
        | ptr x =>
          simp [hn, hh, plainControlFor, GoField.jsonNameOf, GoField.foOf, GoField.tagsOf]
        | slice x =>
          simp [hn, hh, plainControlFor, GoField.jsonNameOf, GoField.foOf, GoField.tagsOf]
      | prim pk =>
        simp [hn, hh, plainControlFor, GoField.jsonNameOf, GoField.foOf, GoField.tagsOf]
      | timeType =>
        simp [hn, hh, plainControlFor, GoField.jsonNameOf, GoField.foOf, GoField.tagsOf]
      | slice w =>
        simp [hn, hh, plainControlFor, GoField.jsonNameOf, GoField.foOf, GoField.tagsOf]

/-- On a field list whose visible fields are all plain, the node builder
produces exactly one Control per visible field, in order. -/
theorem buildUIElements_plain (eflds : List GoField) (basePath : String) (opts : Options)
    (hplain : ∀ f ∈ eflds, fieldVisible f opts = true → isPlainTy f.tyOf = true) :
    buildUIElements eflds basePath opts =
      (visibleFields eflds opts).map (plainControlFor basePath opts) := by
  induction eflds with
  | nil => rfl
  | cons f rest ih =>
    rw [buildUIElements_cons,
      ih (fun g hg hgv => hplain g (List.mem_cons_of_mem _ hg) hgv)]
    unfold visibleFields
    rw [List.filter_cons]
    by_cases hv : fieldVisible f opts = true
    · rw [buildUIField_plain f _ _ (hplain f (List.mem_cons_self _ _) hv) hv]
      simp [hv, visibleFields]
    · rw [buildUIField_invisible f _ _ (Bool.not_eq_true _ ▸ hv)]
      simp [hv, visibleFields]

/-! ## C2 — array-of-struct fields become Controls with a detail layout -/

/-- C2 (modelled branch).  A field whose type is a slice of a struct shape (or
of a pointer to one) with plainly-typed visible element fields becomes a
single Control scoped under the parent, whose `options.detail` is a
`VerticalLayout` with one child Control per visible element field, each
scoped relative to the array item as `#/properties/<elementField>`; an
element shape with no visible fields yields no `detail` key, and slices of
primitives yield a plain Control with no `detail` key. -/
theorem claim_C2 (goName name basePath : String) (fo : FormOptions) (tags : FieldTags)
    (opts : Options) (eflds : List GoField)
    (hname : name ≠ "-") (hhid : isFieldHidden name fo opts = false)
    (hplain : ∀ f ∈ eflds, fieldVisible f opts = true →
      (isPlainTy f.tyOf = true ∧ f.foOf.layout ≠ "horizontal")) :
    (buildUIField (.mk goName name true fo tags (.slice (.ptr (.structT eflds))))
        basePath opts =
      buildUIField (.mk goName name true fo tags (.slice (.structT eflds))) basePath opts) ∧
    (∀ el ∈ buildUIField (.mk goName name true fo tags (.slice (.structT eflds)))
        basePath opts,
      el.typeOf = "Control" ∧ el.scopeOf = basePath ++ "/" ++ name ∧
      (visibleFields eflds opts = [] → getDetail el = none) ∧
      (visibleFields eflds opts ≠ [] →
        ∃ d : Elem, getDetail el = some d ∧ d.typeOf = "VerticalLayout" ∧
          d.elementsOf.map (fun c => (c.typeOf, c.scopeOf)) =
            (visibleFields eflds opts).map
              (fun f => ("Control", "#/properties/" ++ f.jsonNameOf)))) ∧
    (∀ pk : String,
      ∀ el ∈ buildUIField (.mk goName name true fo tags (.slice (.prim pk))) basePath opts,
        el.typeOf = "Control" ∧ getDetail el = none) := by
  have hred :
      buildUIField (.mk goName name true fo tags (.slice (.structT eflds))) basePath opts =
        [mkDetailControl (basePath ++ "/" ++ name) name fo tags opts
          (buildUIElements eflds "#/properties" opts)] := by
    rw [buildUIField.eq_def]
    simp [hname, hhid]
  have hredp :
      buildUIField (.mk goName name true fo tags (.slice (.ptr (.structT eflds))))
          basePath opts =
        [mkDetailControl (basePath ++ "/" ++ name) name fo tags opts
          (buildUIElements eflds "#/properties" opts)] := by
    rw [buildUIField.eq_def]
    simp [hname, hhid]
  have hch :
      buildUIElements eflds "#/properties" opts =
        (visibleFields eflds opts).map (plainControlFor "#/properties" opts) :=
    buildUIElements_plain _ _ _ (fun f hf hv => (hplain f hf hv).1)
  have hnoh : ∀ x ∈ (visibleFields eflds opts).map (plainControlFor "#/properties" opts),
      isHorizontalElement x = false := by
    intro x hx
    rcases List.mem_map.mp hx with ⟨f, hf, rfl⟩
    have hmem := List.mem_filter.mp hf
    exact plainControlFor_not_horizontal _ _ _ (hplain f hmem.1 hmem.2).2
  have hgrp :
      groupHorizontalElements
          ((visibleFields eflds opts).map (plainControlFor "#/properties" opts)) =
        (visibleFields eflds opts).map (plainControlFor "#/properties" opts) := by
    unfold groupHorizontalElements
    exact groupWalk_id_of_no_horizontal _ _ hnoh []
  refine ⟨by rw [hred, hredp], ?_, ?_⟩
  · intro el hel
    rw [hred] at hel
    have hele := List.mem_singleton.mp hel
    subst hele
    unfold mkDetailControl
    rw [hch, hgrp]
    dsimp only
    by_cases hemp : ((visibleFields eflds opts).map (plainControlFor "#/properties" opts)).isEmpty
    · rw [if_pos hemp]
      have hvf : visibleFields eflds opts = [] := by
        rcases List.isEmpty_iff.mp hemp with hm
        exact List.map_eq_nil_iff.mp hm
      refine ⟨?_, ?_, fun _ => ?_, fun hne => absurd hvf hne⟩
      · rw [annotateLayout_typeOf, buildControl_typeOf]
      · rw [annotateLayout_scopeOf, buildControl_scopeOf]
      · apply getDetail_of_elGet_none
        rw [elGet_annotateLayout _ _ (by decide) (by decide)]
        exact buildControl_elGet_none _ _ _ _ _ (by decide) (by decide) (by decide)
          (by decide) (by decide) (by decide) (by decide)
    · rw [if_neg hemp]
      have hvf : visibleFields eflds opts ≠ [] := by
        intro hm
        rw [hm] at hemp
        exact hemp rfl
      refine ⟨?_, ?_, fun hm => absurd hm hvf, fun _ => ?_⟩
      · rw [annotateLayout_typeOf, setOption_typeOf, buildControl_typeOf]
      · rw [annotateLayout_scopeOf, setOption_scopeOf, buildControl_scopeOf]
      · refine ⟨NewVerticalLayout.withElements
          ((visibleFields eflds opts).map (plainControlFor "#/properties" opts)), ?_, ?_, ?_⟩
        · rw [getDetail_eq_elGet, elGet_annotateLayout _ _ (by decide) (by decide),
            elGet_setOption_self]
        · rw [withElements_typeOf]
          rfl
        · rw [withElements_elementsOf, List.map_map]
          refine List.map_congr_left (fun f _ => ?_)
          simp [plainControlFor_typeOf, plainControlFor_scopeOf]
  · intro pk el hel
    have hprim :
        buildUIField (.mk goName name true fo tags (.slice (.prim pk))) basePath opts =
          [annotateLayout
            (buildControl (basePath ++ "/" ++ name) name fo tags opts) fo] := by
      rw [buildUIField.eq_def]
      simp [hname, hhid]
    rw [hprim] at hel
    have hele := List.mem_singleton.mp hel
    subst hele
    refine ⟨?_, ?_⟩
    · rw [annotateLayout_typeOf, buildControl_typeOf]
    · apply getDetail_of_elGet_none
      rw [elGet_annotateLayout _ _ (by decide) (by decide)]
      exact buildControl_elGet_none _ _ _ _ _ (by decide) (by decide) (by decide)
        (by decide) (by decide) (by decide) (by decide)

/-- Witness for C2: a concrete two-field element struct — the
pointer-element and plain-element array fields build the same Control. -/
theorem claim_C2_witness :
    buildUIField (.mk "Items" "items" true {} {} (.slice (.ptr (.structT itemFields))))
        "#/properties" {} =
      buildUIField (.mk "Items" "items" true {} {} (.slice (.structT itemFields)))
        "#/properties" {} :=
  (claim_C2 "Items" "items" "#/properties" {} {} {} itemFields (by decide) (by decide)
    (by decide)).1

/-! ## Checker algebra for the hint-cleanliness invariant -/

theorem noKeysList_iff (ks : List String) (es : List Elem) :
    noKeysList ks es = true ↔ ∀ x ∈ es, noKeysElem ks x = true := by
  induction es with
  | nil => simp [noKeysList]
  | cons e rest ih =>
    simp [noKeysList, Bool.and_eq_true, ih, List.forall_mem_cons]

theorem noKeysVals_iff (ks : List String) (m : OptMap) :
    noKeysVals ks m = true ↔ ∀ p ∈ m, valCleanB ks p.2 = true := by
  induction m with
  | nil => simp [noKeysVals]
  | cons p rest ih =>
    rcases p with ⟨k0, v⟩
    cases v with
    | s sv => simp [noKeysVals, valCleanB, ih, List.forall_mem_cons]
    | b bv => simp [noKeysVals, valCleanB, ih, List.forall_mem_cons]
    | el e =>
      simp [noKeysVals, valCleanB, Bool.and_eq_true, ih, List.forall_mem_cons]

theorem optHasKey_del_self (k : String) (m : OptMap) :
    optHasKey k (optDel k m) = false := by
  simp [optHasKey, optGet_del_self]

theorem optHasKey_del_ne {k k2 : String} (h : k ≠ k2) (m : OptMap) :
    optHasKey k (optDel k2 m) = optHasKey k m := by
  simp [optHasKey, optGet_del_ne h]

theorem optHasKey_set_self (k : String) (v : OptVal) (m : OptMap) :
    optHasKey k (optSet k v m) = true := by
  simp [optHasKey, optGet_set_self]

theorem optHasKey_set_ne {k k2 : String} (h : k ≠ k2) (v : OptVal) (m : OptMap) :
    optHasKey k (optSet k2 v m) = optHasKey k m := by
  simp [optHasKey, optGet_set_ne h]

theorem optSet_ne_nil (k : String) (v : OptVal) (m : OptMap) : optSet k v m ≠ [] := by
  cases m with
  | nil => simp [optSet]
  | cons p rest =>
    rcases p with ⟨pk, pv⟩
    by_cases h : pk = k <;> simp [optSet, h]

theorem mem_optDel {p : String × OptVal} {k : String} {m : OptMap}
    (h : p ∈ optDel k m) : p ∈ m := by
  induction m with
  | nil => exact absurd h (List.not_mem_nil p)
  | cons q rest ih =>
    rcases q with ⟨qk, qv⟩
    by_cases hq : qk = k
    · rw [optDel, if_pos hq] at h
      exact List.mem_cons_of_mem _ (ih h)
    · rw [optDel, if_neg hq] at h
      rcases List.mem_cons.mp h with rfl | h
      · exact List.mem_cons_self _ _
      · exact List.mem_cons_of_mem _ (ih h)

theorem mem_optSet {p : String × OptVal} {k : String} {v : OptVal} {m : OptMap}
    (h : p ∈ optSet k v m) : p ∈ m ∨ p.2 = v := by
  induction m with
  | nil =>
    rcases List.mem_singleton.mp h with rfl
    exact Or.inr rfl
  | cons q rest ih =>
    rcases q with ⟨qk, qv⟩
    by_cases hq : qk = k
    · rw [optSet, if_pos hq] at h
      rcases List.mem_cons.mp h with rfl | h
      · exact Or.inr rfl
      · exact Or.inl (List.mem_cons_of_mem _ h)
    · rw [optSet, if_neg hq] at h
      rcases List.mem_cons.mp h with rfl | h
      · exact Or.inl (List.mem_cons_self _ _)
      · rcases ih h with h | h
        · exact Or.inl (List.mem_cons_of_mem _ h)
        · exact Or.inr h

theorem noKeysVals_del (ks : List String) (k : String) (m : OptMap)
    (h : noKeysVals ks m = true) : noKeysVals ks (optDel k m) = true := by
  rw [noKeysVals_iff] at h ⊢
  exact fun p hp => h p (mem_optDel hp)

theorem noKeysVals_set (ks : List String) (k : String) (v : OptVal) (m : OptMap)
    (h : noKeysVals ks m = true) (hv : valCleanB ks v = true) :
    noKeysVals ks (optSet k v m) = true := by
  rw [noKeysVals_iff] at h ⊢
  intro p hp
  rcases mem_optSet hp with hp | hp
  · exact h p hp
  · rw [hp]
    exact hv

theorem noKeysElem_mk_none (ks : List String) (t l i sc : String) (es : List Elem)
    (r : Option UISchemaRule) :
    noKeysElem ks (.mk t l i sc es none r) = noKeysList ks es := by
  simp [noKeysElem]

theorem noKeysElem_mk_some (ks : List String) (t l i sc : String) (es : List Elem)
    (m : OptMap) (r : Option UISchemaRule) :
    noKeysElem ks (.mk t l i sc es (some m) r) =
      (!m.isEmpty && !(ks.any (fun k => optHasKey k m)) && noKeysVals ks m &&
        noKeysList ks es) := rfl

theorem hintOkTop_mk_none (t l i sc : String) (es : List Elem) (r : Option UISchemaRule) :
    hintOkTop (.mk t l i sc es none r) = true := rfl

theorem hintOkTop_mk_some (t l i sc : String) (es : List Elem) (m : OptMap)
    (r : Option UISchemaRule) :
    hintOkTop (.mk t l i sc es (some m) r) =
      (!m.isEmpty &&
       (match optGet "layout" m with
        | none => true
        | some (.s v) => v = "horizontal"
        | some _ => false) &&
       (!(optHasKey "layoutGroup" m) || isHorizontalElement (.mk t l i sc es (some m) r)) &&
       noKeysVals layoutKeys m) := rfl

theorem postBuildElem_parts {el : Elem} (h : postBuildElem el = true) :
    hintOkTop el = true ∧ noKeysList layoutKeys el.elementsOf = true := by
  rw [postBuildElem, Bool.and_eq_true] at h
  exact h

/-- Consuming the layout hints of a freshly built element yields a fully
clean element. -/
theorem consumeLayoutOption_clean (el : Elem) (h : postBuildElem el = true) :
    noKeysElem layoutKeys (consumeLayoutOption el) = true := by
  obtain ⟨h1, h2⟩ := postBuildElem_parts h
  cases el with
  | mk t l i sc es opts r =>
    simp only [Elem.elementsOf] at h2
    cases opts with
    | none =>
      show noKeysElem layoutKeys (.mk t l i sc es none r) = true
      rw [noKeysElem_mk_none]
      exact h2
    | some m =>
      rw [hintOkTop_mk_some] at h1
      have hvals : noKeysVals layoutKeys m = true := by
        rw [Bool.and_eq_true] at h1
        exact h1.2
      show noKeysElem layoutKeys
        ((Elem.mk t l i sc es (some m) r).withOptions
          (if (optDel "layoutGroup" (optDel "layout" m)).isEmpty then none
           else some (optDel "layoutGroup" (optDel "layout" m)))) = true
      by_cases hm2 : (optDel "layoutGroup" (optDel "layout" m)).isEmpty
      · rw [if_pos hm2]
        show noKeysElem layoutKeys (.mk t l i sc es none r) = true
        rw [noKeysElem_mk_none]
        exact h2
      · rw [if_neg hm2]
        show noKeysElem layoutKeys
          (.mk t l i sc es (some (optDel "layoutGroup" (optDel "layout" m))) r) = true
        rw [noKeysElem_mk_some]
        have hk1 : optHasKey "layout" (optDel "layoutGroup" (optDel "layout" m)) = false := by
          rw [optHasKey_del_ne (by decide), optHasKey_del_self]
        have hk2 : optHasKey "layoutGroup" (optDel "layoutGroup" (optDel "layout" m)) = false :=
          optHasKey_del_self _ _
        have hv2 : noKeysVals ["layout", "layoutGroup"]
            (optDel "layoutGroup" (optDel "layout" m)) = true :=
          noKeysVals_del _ _ _ (noKeysVals_del _ _ _ hvals)
        have h2b : noKeysList ["layout", "layoutGroup"] es = true := h2
        simp [layoutKeys, hk1, hk2, hv2, h2b, hm2]

/-- A freshly built element that is not horizontal is already clean. -/
theorem postBuild_not_horizontal_clean (el : Elem) (h : postBuildElem el = true)
    (hh : isHorizontalElement el = false) :
    noKeysElem layoutKeys el = true := by
  obtain ⟨h1, h2⟩ := postBuildElem_parts h
  cases el with
  | mk t l i sc es opts r =>
    simp only [Elem.elementsOf] at h2
    cases opts with
    | none =>
      rw [noKeysElem_mk_none]
      exact h2
    | some m =>
      rw [hintOkTop_mk_some] at h1
      rw [Bool.and_eq_true] at h1
      obtain ⟨h1a, hvals⟩ := h1
      rw [Bool.and_eq_true] at h1a
      obtain ⟨h1b, hlg⟩ := h1a
      rw [Bool.and_eq_true] at h1b
      obtain ⟨hne, hlay⟩ := h1b
      have hlaynone : optGet "layout" m = none := by
        cases hget : optGet "layout" m with
        | none => rfl
        | some v =>
          cases v with
          | s sv =>
            rw [hget] at hlay
            have hsv : sv = "horizontal" := by simpa using hlay
            subst hsv
            have : isHorizontalElement (.mk t l i sc es (some m) r) = true := by
              simp [isHorizontalElement, Elem.optionsOf, hget]
            rw [hh] at this
            cases this
          | b bv => rw [hget] at hlay; cases hlay
          | el e => rw [hget] at hlay; cases hlay
      have hk1 : optHasKey "layout" m = false := by
        simp [optHasKey, hlaynone]
      have hk2 : optHasKey "layoutGroup" m = false := by
        rw [Bool.or_eq_true] at hlg
        rcases hlg with hlg | hlg
        · simpa using hlg
        · rw [hh] at hlg
          cases hlg
      rw [noKeysElem_mk_some]
      have hvals2 : noKeysVals ["layout", "layoutGroup"] m = true := hvals
      have h2b : noKeysList ["layout", "layoutGroup"] es = true := h2
      simp [layoutKeys, hk1, hk2, hvals2, h2b, hne]

theorem emitCore_clean (ms : List Elem) (h : ∀ x ∈ ms, postBuildElem x = true) :
    ∀ y ∈ emitCore ms, noKeysElem layoutKeys y = true := by
  intro y hy
  match ms with
  | [x] =>
    simp [emitCore] at hy
    subst hy
    exact consumeLayoutOption_clean x (h x (List.mem_singleton.mpr rfl))
  | [] =>
    simp [emitCore] at hy
    subst hy
    rfl
  | x :: x2 :: rest =>
    simp only [emitCore, List.mem_singleton] at hy
    subst hy
    show noKeysElem layoutKeys
      (.mk "HorizontalLayout" "" "" "" ((x :: x2 :: rest).map consumeLayoutOption) none none) =
      true
    rw [noKeysElem_mk_none, noKeysList_iff]
    intro z hz
    rcases List.mem_map.mp hz with ⟨w, hw, rfl⟩
    exact consumeLayoutOption_clean w (h w hw)

theorem flushUnnamed_clean (ms : List Elem) (h : ∀ x ∈ ms, postBuildElem x = true) :
    ∀ y ∈ flushUnnamed ms, noKeysElem layoutKeys y = true := by
  intro y hy
  unfold flushUnnamed at hy
  split at hy
  · simp at hy
  · exact emitCore_clean ms h y hy

theorem groupWalk_clean (all : List Elem) (hall : ∀ x ∈ all, postBuildElem x = true)
    (todo : List Elem) :
    ∀ (pending : List Elem) (emitted : List String),
      (∀ x ∈ todo, postBuildElem x = true) → (∀ x ∈ pending, postBuildElem x = true) →
      ∀ y ∈ groupWalk all todo pending emitted, noKeysElem layoutKeys y = true := by
  induction todo with
  | nil =>
    intro pending emitted htodo hpend y hy
    exact flushUnnamed_clean pending hpend y hy
  | cons el rest ih =>
    intro pending emitted htodo hpend y hy
    have hel : postBuildElem el = true := htodo el (List.mem_cons_self _ _)
    have hrest : ∀ x ∈ rest, postBuildElem x = true :=
      fun x hx => htodo x (List.mem_cons_of_mem _ hx)
    unfold groupWalk at hy
    cases hm : memberName el with
    | some g =>
      rw [hm] at hy
      rcases List.mem_append.mp hy with hy | hy
      · exact flushUnnamed_clean pending hpend y hy
      · by_cases hg : g ∈ emitted
        · rw [if_pos hg] at hy
          exact ih [] emitted hrest (by simp) y hy
        · rw [if_neg hg] at hy
          rcases List.mem_append.mp hy with hy | hy
          · refine emitCore_clean _ ?_ y hy
            intro x hx
            exact hall x (List.mem_filter.mp hx).1
          · exact ih [] (g :: emitted) hrest (by simp) y hy
    | none =>
      rw [hm] at hy
      by_cases hhor : isHorizontalElement el
      · rw [if_pos hhor] at hy
        refine ih (pending ++ [el]) emitted hrest ?_ y hy
        intro x hx
        rcases List.mem_append.mp hx with hx | hx
        · exact hpend x hx
        · rcases List.mem_singleton.mp hx with rfl
          exact hel
      · rw [if_neg hhor] at hy
        rcases List.mem_append.mp hy with hy | hy
        · rcases List.mem_append.mp hy with hy | hy
          · exact flushUnnamed_clean pending hpend y hy
          · rcases List.mem_singleton.mp hy with rfl
            exact postBuild_not_horizontal_clean y hel (by simpa using hhor)
        · exact ih [] emitted hrest (by simp) y hy

/-- The grouping pass turns a list of freshly built elements into fully clean
elements. -/
theorem groupHorizontalElements_clean (es : List Elem)
    (h : ∀ x ∈ es, postBuildElem x = true) :
    ∀ y ∈ groupHorizontalElements es, noKeysElem layoutKeys y = true := by
  unfold groupHorizontalElements
  exact groupWalk_clean es h es [] [] h (by simp)

/-! ## The build invariant of freshly constructed controls and groups -/

theorem isHorizontal_of_elGet_layout_some (el : Elem)
    (h : elGet el "layout" = some (.s "horizontal")) :
    isHorizontalElement el = true := by
  cases el with
  | mk t l i sc es opts r =>
    cases opts with
    | none => simp [elGet, Elem.optionsOf] at h
    | some m =>
      simp only [elGet, Elem.optionsOf] at h
      simp [isHorizontalElement, Elem.optionsOf, h]

theorem hintOkTop_of (el : Elem)
    (h1 : optsNonemptyB el = true)
    (h2 : elGet el "layout" = none ∨ elGet el "layout" = some (.s "horizontal"))
    (h3 : elGet el "layoutGroup" = none ∨ isHorizontalElement el = true)
    (h4 : valsCleanB layoutKeys el = true) :
    hintOkTop el = true := by
  cases el with
  | mk t l i sc es opts r =>
    cases opts with
    | none => rfl
    | some m =>
      simp only [optsNonemptyB, valsCleanB, elGet, Elem.optionsOf] at h1 h2 h3 h4
      rw [hintOkTop_mk_some]
      simp only [Bool.and_eq_true]
      refine ⟨⟨⟨h1, ?_⟩, ?_⟩, h4⟩
      · rcases h2 with h2 | h2
        · rw [h2]
        · rw [h2]
          simp
      · rcases h3 with h3 | h3
        · have : optHasKey "layoutGroup" m = false := by simp [optHasKey, h3]
          simp [this]
        · simp [h3]
    
theorem setOption_optionsOf (el : Elem) (k : String) (v : OptVal) :
    (setOption el k v).optionsOf = some (optSet k v ((el.optionsOf).getD [])) := by
  cases el; rfl

theorem valCleanB_s (ks : List String) (v : String) : valCleanB ks (.s v) = true := rfl

theorem valCleanB_b (ks : List String) (v : Bool) : valCleanB ks (.b v) = true := rfl

/-- Writing a non-layout key with a clean value preserves the build facts of
an options map. -/
theorem setOption_preserves (el : Elem) (k : String) (v : OptVal)
    (hk1 : k ≠ "layout") (hk2 : k ≠ "layoutGroup") (hv : valCleanB layoutKeys v = true)
    (_h1 : optsNonemptyB el = true) (h2 : elGet el "layout" = none)
    (h3 : elGet el "layoutGroup" = none) (h4 : valsCleanB layoutKeys el = true) :
    optsNonemptyB (setOption el k v) = true ∧
    elGet (setOption el k v) "layout" = none ∧
    elGet (setOption el k v) "layoutGroup" = none ∧
    valsCleanB layoutKeys (setOption el k v) = true := by
  refine ⟨?_, ?_, ?_, ?_⟩
  · rw [optsNonemptyB, setOption_optionsOf]
    have := optSet_ne_nil k v ((el.optionsOf).getD [])
    simp [this]
  · rw [elGet_setOption_ne el (Ne.symm hk1), h2]
  · rw [elGet_setOption_ne el (Ne.symm hk2), h3]
  · rw [valsCleanB, setOption_optionsOf]
    apply noKeysVals_set _ _ _ _ _ hv
    cases hopt : el.optionsOf with
    | none => simp [noKeysVals]
    | some m =>
      rw [valsCleanB, hopt] at h4
      simpa using h4

/-- A conditional write of a non-layout key preserves the build facts. -/
theorem ite_setOption_preserves (c : Prop) [Decidable c] (el : Elem) (k : String) (v : OptVal)
    (hk1 : k ≠ "layout") (hk2 : k ≠ "layoutGroup") (hv : valCleanB layoutKeys v = true)
    (h1 : optsNonemptyB el = true) (h2 : elGet el "layout" = none)
    (h3 : elGet el "layoutGroup" = none) (h4 : valsCleanB layoutKeys el = true) :
    optsNonemptyB (if c then setOption el k v else el) = true ∧
    elGet (if c then setOption el k v else el) "layout" = none ∧
    elGet (if c then setOption el k v else el) "layoutGroup" = none ∧
    valsCleanB layoutKeys (if c then setOption el k v else el) = true := by
  split_ifs
  · exact setOption_preserves el k v hk1 hk2 hv h1 h2 h3 h4
  · exact ⟨h1, h2, h3, h4⟩

theorem applyRule_optionsOf (el : Elem) (tags : FieldTags) :
    (applyRule el tags).optionsOf = el.optionsOf := by
  unfold applyRule
  split_ifs <;> simp [withRule_optionsOf]

theorem optsNonemptyB_congr {el el2 : Elem} (h : el2.optionsOf = el.optionsOf) :
    optsNonemptyB el2 = optsNonemptyB el := by
  rw [optsNonemptyB, optsNonemptyB, h]

theorem valsCleanB_congr (ks : List String) {el el2 : Elem}
    (h : el2.optionsOf = el.optionsOf) :
    valsCleanB ks el2 = valsCleanB ks el := by
  rw [valsCleanB, valsCleanB, h]

theorem elGet_congr (k : String) {el el2 : Elem} (h : el2.optionsOf = el.optionsOf) :
    elGet el2 k = elGet el k := by
  rw [elGet, elGet, h]

/-- `applyCategoryRuleOptions` preserves the build facts (it writes only the
two category-rule hint keys, with string values). -/
theorem applyCategoryRuleOptions_preserves (el : Elem) (fo : FormOptions)
    (h1 : optsNonemptyB el = true) (h2 : elGet el "layout" = none)
    (h3 : elGet el "layoutGroup" = none) (h4 : valsCleanB layoutKeys el = true) :
    optsNonemptyB (applyCategoryRuleOptions el fo) = true ∧
    elGet (applyCategoryRuleOptions el fo) "layout" = none ∧
    elGet (applyCategoryRuleOptions el fo) "layoutGroup" = none ∧
    valsCleanB layoutKeys (applyCategoryRuleOptions el fo) = true := by
  unfold applyCategoryRuleOptions
  dsimp only
  generalize (if fo.visibleIf ≠ "" then (EffectShow, fo.visibleIf)
    else if fo.hideIf ≠ "" then (EffectHide, fo.hideIf)
    else if fo.enableIf ≠ "" then (EffectEnable, fo.enableIf)
    else if fo.disableIf ≠ "" then (EffectDisable, fo.disableIf)
    else ("", "")) = pr
  obtain ⟨a, b⟩ := pr
  dsimp only
  split_ifs
  · exact ⟨h1, h2, h3, h4⟩
  · obtain ⟨g1, g2, g3, g4⟩ :=
      setOption_preserves el "categoryRuleEffect" (.s a) (by decide) (by decide)
        (valCleanB_s _ _) h1 h2 h3 h4
    exact setOption_preserves _ "categoryRuleExpr" (.s b) (by decide) (by decide)
      (valCleanB_s _ _) g1 g2 g3 g4

theorem applyCategoryI18nOption_preserves (el : Elem) (fo : FormOptions)
    (h1 : optsNonemptyB el = true) (h2 : elGet el "layout" = none)
    (h3 : elGet el "layoutGroup" = none) (h4 : valsCleanB layoutKeys el = true) :
    optsNonemptyB (applyCategoryI18nOption el fo) = true ∧
    elGet (applyCategoryI18nOption el fo) "layout" = none ∧
    elGet (applyCategoryI18nOption el fo) "layoutGroup" = none ∧
    valsCleanB layoutKeys (applyCategoryI18nOption el fo) = true := by
  unfold applyCategoryI18nOption
  split_ifs
  · exact ⟨h1, h2, h3, h4⟩
  · exact setOption_preserves el "categoryI18n" _ (by decide) (by decide)
      (valCleanB_s _ _) h1 h2 h3 h4

/-- The build facts of the fully constructed control. -/
theorem buildControl_inv (scope name : String) (fo : FormOptions) (tags : FieldTags)
    (opts : Options) :
    optsNonemptyB (buildControl scope name fo tags opts) = true ∧
    elGet (buildControl scope name fo tags opts) "layout" = none ∧
    elGet (buildControl scope name fo tags opts) "layoutGroup" = none ∧
    valsCleanB layoutKeys (buildControl scope name fo tags opts) = true := by
  have hbase0 : (controlLabelStep scope (translateLabel fo.label tags.i18nKey opts)).optionsOf
      = none := by
    unfold controlLabelStep
    split_ifs
    · rw [withLabel_optionsOf]
      rfl
    · rfl
  have b1 : optsNonemptyB (controlLabelStep scope (translateLabel fo.label tags.i18nKey opts))
      = true := by rw [optsNonemptyB, hbase0]
  have b2 : elGet (controlLabelStep scope (translateLabel fo.label tags.i18nKey opts))
      "layout" = none := by rw [elGet, hbase0]
  have b3 : elGet (controlLabelStep scope (translateLabel fo.label tags.i18nKey opts))
      "layoutGroup" = none := by rw [elGet, hbase0]
  have b4 : valsCleanB layoutKeys
      (controlLabelStep scope (translateLabel fo.label tags.i18nKey opts)) = true := by
    rw [valsCleanB, hbase0]
  obtain ⟨c1, c2, c3, c4⟩ := ite_setOption_preserves (fo.category ≠ "") _ "category"
    (.s fo.category) (by decide) (by decide) (valCleanB_s _ _) b1 b2 b3 b4
  rw [show (if fo.category ≠ "" then
      setOption (controlLabelStep scope (translateLabel fo.label tags.i18nKey opts))
        "category" (.s fo.category)
    else controlLabelStep scope (translateLabel fo.label tags.i18nKey opts)) =
      controlCategoryStep (controlLabelStep scope (translateLabel fo.label tags.i18nKey opts))
        fo from rfl] at c1 c2 c3 c4
  have hro :
      optsNonemptyB (controlReadonlyStep
        (controlCategoryStep
          (controlLabelStep scope (translateLabel fo.label tags.i18nKey opts)) fo)
        (fo.readonly || isRoleReadOnly name opts) fo.multiline) = true ∧
      elGet (controlReadonlyStep
        (controlCategoryStep
          (controlLabelStep scope (translateLabel fo.label tags.i18nKey opts)) fo)
        (fo.readonly || isRoleReadOnly name opts) fo.multiline) "layout" = none ∧
      elGet (controlReadonlyStep
        (controlCategoryStep
          (controlLabelStep scope (translateLabel fo.label tags.i18nKey opts)) fo)
        (fo.readonly || isRoleReadOnly name opts) fo.multiline) "layoutGroup" = none ∧
      valsCleanB layoutKeys (controlReadonlyStep
        (controlCategoryStep
          (controlLabelStep scope (translateLabel fo.label tags.i18nKey opts)) fo)
        (fo.readonly || isRoleReadOnly name opts) fo.multiline) = true := by
    unfold controlReadonlyStep
    dsimp only
    split_ifs
    · obtain ⟨x1, x2, x3, x4⟩ := setOption_preserves _ "readonly" (.b true)
        (by decide) (by decide) (valCleanB_b _ _) c1 c2 c3 c4
      exact setOption_preserves _ "multi" (.b true)
        (by decide) (by decide) (valCleanB_b _ _) x1 x2 x3 x4
    · exact setOption_preserves _ "multi" (.b true)
        (by decide) (by decide) (valCleanB_b _ _) c1 c2 c3 c4
    · exact setOption_preserves _ "readonly" (.b true)
        (by decide) (by decide) (valCleanB_b _ _) c1 c2 c3 c4
    · exact ⟨c1, c2, c3, c4⟩
    · exact ⟨c1, c2, c3, c4⟩
  obtain ⟨f1, f2, f3, f4⟩ := hro
  obtain ⟨g1, g2, g3, g4⟩ := ite_setOption_preserves
    (resolveRenderer scope tags.renderer opts ≠ "") _ "renderer"
    (.s (resolveRenderer scope tags.renderer opts)) (by decide) (by decide)
    (valCleanB_s _ _) f1 f2 f3 f4
  unfold buildControl
  have har : ∀ (x : Elem), (applyRule x tags).optionsOf = x.optionsOf := fun x =>
    applyRule_optionsOf x tags
  obtain ⟨i1, i2, i3, i4⟩ := applyCategoryRuleOptions_preserves _ fo
    (by rw [optsNonemptyB_congr (har _)]
        exact g1)
    (by rw [elGet_congr _ (har _)]
        exact g2)
    (by rw [elGet_congr _ (har _)]
        exact g3)
    (by rw [valsCleanB_congr _ (har _)]
        exact g4)
  exact applyCategoryI18nOption_preserves _ fo i1 i2 i3 i4

/-- A fresh control satisfies the build invariant. -/
theorem buildControl_postBuild (scope name : String) (fo : FormOptions) (tags : FieldTags)
    (opts : Options) :
    postBuildElem (buildControl scope name fo tags opts) = true := by
  obtain ⟨o1, o2, o3, o4⟩ := buildControl_inv scope name fo tags opts
  rw [postBuildElem, Bool.and_eq_true]
  refine ⟨hintOkTop_of _ o1 (Or.inl o2) (Or.inl o3) o4, ?_⟩
  rw [buildControl_elementsOf]
  rfl

theorem setOption_optsNonempty (el : Elem) (k : String) (v : OptVal) :
    optsNonemptyB (setOption el k v) = true := by
  rw [optsNonemptyB, setOption_optionsOf]
  have := optSet_ne_nil k v ((el.optionsOf).getD [])
  simp [this]

theorem setOption_valsClean (ks : List String) (el : Elem) (k : String) (v : OptVal)
    (h : valsCleanB ks el = true) (hv : valCleanB ks v = true) :
    valsCleanB ks (setOption el k v) = true := by
  rw [valsCleanB, setOption_optionsOf]
  apply noKeysVals_set _ _ _ _ _ hv
  cases hopt : el.optionsOf with
  | none => simp [noKeysVals]
  | some m =>
    rw [valsCleanB, hopt] at h
    simpa using h

/-- The horizontal-layout annotation keeps the build invariant: it writes
`layout` only with the string `"horizontal"` and `layoutGroup` only after
`layout`, making the element horizontal. -/
theorem annotateLayout_postBuild (c : Elem) (fo : FormOptions)
    (h1 : optsNonemptyB c = true) (h2 : elGet c "layout" = none)
    (h3 : elGet c "layoutGroup" = none) (h4 : valsCleanB layoutKeys c = true)
    (hels : noKeysList layoutKeys c.elementsOf = true) :
    postBuildElem (annotateLayout c fo) = true := by
  have hbase : postBuildElem c = true := by
    rw [postBuildElem, Bool.and_eq_true]
    exact ⟨hintOkTop_of c h1 (Or.inl h2) (Or.inl h3) h4, hels⟩
  unfold annotateLayout
  split_ifs with hl hg
  · have q2 : elGet (setOption c "layout" (.s "horizontal")) "layout" =
        some (.s "horizontal") := elGet_setOption_self c _ _
    have q3 : elGet (setOption c "layout" (.s "horizontal")) "layoutGroup" = none := by
      rw [elGet_setOption_ne c (by decide)]
      exact h3
    have q4 : valsCleanB layoutKeys (setOption c "layout" (.s "horizontal")) = true :=
      setOption_valsClean _ c _ _ h4 (valCleanB_s _ _)
    have r2 : elGet (setOption (setOption c "layout" (.s "horizontal")) "layoutGroup"
        (.s fo.layoutGroup)) "layout" = some (.s "horizontal") := by
      rw [elGet_setOption_ne _ (by decide)]
      exact q2
    rw [postBuildElem, Bool.and_eq_true]
    constructor
    · refine hintOkTop_of _ (setOption_optsNonempty _ _ _) (Or.inr r2)
        (Or.inr (isHorizontal_of_elGet_layout_some _ r2))
        (setOption_valsClean _ _ _ _ q4 (valCleanB_s _ _))
    · rw [setOption_elementsOf, setOption_elementsOf]
      exact hels
  · have q2 : elGet (setOption c "layout" (.s "horizontal")) "layout" =
        some (.s "horizontal") := elGet_setOption_self c _ _
    have q3 : elGet (setOption c "layout" (.s "horizontal")) "layoutGroup" = none := by
      rw [elGet_setOption_ne c (by decide)]
      exact h3
    rw [postBuildElem, Bool.and_eq_true]
    constructor
    · exact hintOkTop_of _ (setOption_optsNonempty _ _ _) (Or.inr q2) (Or.inl q3)
        (setOption_valsClean _ c _ _ h4 (valCleanB_s _ _))
    · rw [setOption_elementsOf]
      exact hels
  · exact hbase

/-! ## Build invariant of groups, detail controls, and the node builder -/

theorem withElements_optionsOf (el : Elem) (es : List Elem) :
    (el.withElements es).optionsOf = el.optionsOf := by
  cases el
  rfl

theorem withI18n_optionsOf (el : Elem) (i : String) :
    (el.withI18n i).optionsOf = el.optionsOf := by
  cases el
  rfl

theorem withI18n_elementsOf (el : Elem) (i : String) :
    (el.withI18n i).elementsOf = el.elementsOf := by
  cases el
  rfl

theorem applyGroupCategoryOptions_elementsOf (g : Elem) (fo : FormOptions) :
    (applyGroupCategoryOptions g fo).elementsOf = g.elementsOf := by
  unfold applyGroupCategoryOptions
  dsimp only
  rw [applyCategoryI18nOption_elementsOf, applyCategoryRuleOptions_elementsOf]
  split_ifs
  · rw [setOption_elementsOf]
  · rfl

/-- `applyGroupCategoryOptions` preserves the build facts: it writes only
category-family hint keys, with string values. -/
theorem applyGroupCategoryOptions_preserves (g : Elem) (fo : FormOptions)
    (h1 : optsNonemptyB g = true) (h2 : elGet g "layout" = none)
    (h3 : elGet g "layoutGroup" = none) (h4 : valsCleanB layoutKeys g = true) :
    optsNonemptyB (applyGroupCategoryOptions g fo) = true ∧
    elGet (applyGroupCategoryOptions g fo) "layout" = none ∧
    elGet (applyGroupCategoryOptions g fo) "layoutGroup" = none ∧
    valsCleanB layoutKeys (applyGroupCategoryOptions g fo) = true := by
  unfold applyGroupCategoryOptions
  dsimp only
  obtain ⟨a1, a2, a3, a4⟩ := ite_setOption_preserves (fo.category ≠ "") g "category"
    (.s fo.category) (by decide) (by decide) (valCleanB_s _ _) h1 h2 h3 h4
  obtain ⟨b1, b2, b3, b4⟩ := applyCategoryRuleOptions_preserves _ fo a1 a2 a3 a4
  exact applyCategoryI18nOption_preserves _ fo b1 b2 b3 b4

/-- The Group built for a nested-struct field satisfies the build invariant
whenever its recursively built children do. -/
theorem mkGroupElem_postBuild (goName : String) (fo : FormOptions) (tags : FieldTags)
    (opts : Options) (children : List Elem)
    (hch : ∀ x ∈ children, postBuildElem x = true) :
    postBuildElem (mkGroupElem goName fo tags opts children) = true := by
  have hgrp : ∀ y ∈ groupHorizontalElements children, noKeysElem layoutKeys y = true :=
    groupHorizontalElements_clean children hch
  have hels0 : noKeysList layoutKeys (groupHorizontalElements children) = true :=
    (noKeysList_iff _ _).mpr hgrp
  unfold mkGroupElem
  dsimp only
  generalize translateLabel (if fo.label = "" then goName else fo.label) tags.i18nKey opts
    = lbl
  have h0 : ((NewGroup lbl).withElements (groupHorizontalElements children)).optionsOf
      = none := rfl
  have b1 : optsNonemptyB ((NewGroup lbl).withElements (groupHorizontalElements children))
      = true := by rw [optsNonemptyB, h0]
  have b2 : elGet ((NewGroup lbl).withElements (groupHorizontalElements children))
      "layout" = none := by rw [elGet, h0]
  have b3 : elGet ((NewGroup lbl).withElements (groupHorizontalElements children))
      "layoutGroup" = none := by rw [elGet, h0]
  have b4 : valsCleanB layoutKeys
      ((NewGroup lbl).withElements (groupHorizontalElements children)) = true := by
    rw [valsCleanB, h0]
  have har : (applyRule ((NewGroup lbl).withElements (groupHorizontalElements children))
      tags).optionsOf
      = ((NewGroup lbl).withElements (groupHorizontalElements children)).optionsOf :=
    applyRule_optionsOf _ tags
  obtain ⟨c1, c2, c3, c4⟩ := applyGroupCategoryOptions_preserves
    (applyRule ((NewGroup lbl).withElements (groupHorizontalElements children)) tags) fo
    (by rw [optsNonemptyB_congr har]
        exact b1)
    (by rw [elGet_congr _ har]
        exact b2)
    (by rw [elGet_congr _ har]
        exact b3)
    (by rw [valsCleanB_congr _ har]
        exact b4)
  rw [postBuildElem, Bool.and_eq_true]
  refine ⟨hintOkTop_of _ c1 (Or.inl c2) (Or.inl c3) c4, ?_⟩
  rw [applyGroupCategoryOptions_elementsOf, applyRule_elementsOf, withElements_elementsOf]
  exact hels0

/-- The plain-Control branch of the node builder satisfies the build
invariant. -/
theorem plainBranch_postBuild (scope name : String) (fo : FormOptions) (tags : FieldTags)
    (opts : Options) :
    postBuildElem (annotateLayout (buildControl scope name fo tags opts) fo) = true := by
  obtain ⟨o1, o2, o3, o4⟩ := buildControl_inv scope name fo tags opts
  refine annotateLayout_postBuild _ fo o1 o2 o3 o4 ?_
  rw [buildControl_elementsOf]
  rfl

/-- The array-detail Control satisfies the build invariant whenever its
recursively built detail children do. -/
theorem mkDetailControl_postBuild (scope name : String) (fo : FormOptions) (tags : FieldTags)
    (opts : Options) (children : List Elem)
    (hch : ∀ x ∈ children, postBuildElem x = true) :
    postBuildElem (mkDetailControl scope name fo tags opts children) = true := by
  have hgrp : ∀ y ∈ groupHorizontalElements children, noKeysElem layoutKeys y = true :=
    groupHorizontalElements_clean children hch
  have hdc : noKeysList layoutKeys (groupHorizontalElements children) = true :=
    (noKeysList_iff _ _).mpr hgrp
  obtain ⟨o1, o2, o3, o4⟩ := buildControl_inv scope name fo tags opts
  have hoels : noKeysList layoutKeys (buildControl scope name fo tags opts).elementsOf
      = true := by
    rw [buildControl_elementsOf]
    rfl
  unfold mkDetailControl
  dsimp only
  split_ifs with hemp
  · exact annotateLayout_postBuild _ fo o1 o2 o3 o4 hoels
  · have hvl : valCleanB layoutKeys
        (.el (NewVerticalLayout.withElements (groupHorizontalElements children))) = true := by
      show noKeysElem layoutKeys
        (NewVerticalLayout.withElements (groupHorizontalElements children)) = true
      rw [show NewVerticalLayout.withElements (groupHorizontalElements children) =
        Elem.mk "VerticalLayout" "" "" "" (groupHorizontalElements children) none none
        from rfl, noKeysElem_mk_none]
      exact hdc
    obtain ⟨p1, p2, p3, p4⟩ := setOption_preserves (buildControl scope name fo tags opts)
      "detail" _ (by decide) (by decide) hvl o1 o2 o3 o4
    refine annotateLayout_postBuild _ fo p1 p2 p3 p4 ?_
    rw [setOption_elementsOf]
    exact hoels

mutual

/-- Every element the per-field builder produces satisfies the build
invariant. -/
theorem buildUIField_postBuild (f : GoField) (basePath : String) (opts : Options) :
    ∀ x ∈ buildUIField f basePath opts, postBuildElem x = true := by
  rcases f with ⟨goN, n, ex, fo, tags, ty⟩
  intro x hx
  rw [buildUIField.eq_def] at hx
  dsimp only at hx
  by_cases hex : ex = false
  · rw [if_pos hex] at hx
    exact absurd hx (List.not_mem_nil x)
  rw [if_neg hex] at hx
  by_cases hn : n = "-"
  · rw [if_pos hn] at hx
    exact absurd hx (List.not_mem_nil x)
  rw [if_neg hn] at hx
  by_cases hh : isFieldHidden n fo opts = true
  · rw [if_pos hh] at hx
    exact absurd hx (List.not_mem_nil x)
  rw [if_neg hh] at hx
  cases ty with
    | prim pk =>
      simp only [List.mem_singleton] at hx
      subst hx
      exact plainBranch_postBuild _ _ _ _ _
    | timeType =>
      simp only [List.mem_singleton] at hx
      subst hx
      exact plainBranch_postBuild _ _ _ _ _
    | structT flds =>
      simp only [List.mem_singleton] at hx
      subst hx
      exact mkGroupElem_postBuild _ _ _ _ _ (buildUIElements_postBuild flds _ opts)
    | ptr u =>
      cases u with
        | structT flds =>
          simp only [List.mem_singleton] at hx
          subst hx
          exact mkGroupElem_postBuild _ _ _ _ _ (buildUIElements_postBuild flds _ opts)
        | prim pk =>
          simp only [List.mem_singleton] at hx
          subst hx
          exact plainBranch_postBuild _ _ _ _ _
        | timeType =>
          simp only [List.mem_singleton] at hx
          subst hx
          exact plainBranch_postBuild _ _ _ _ _
        | ptr w =>
          simp only [List.mem_singleton] at hx
          subst hx
          exact plainBranch_postBuild _ _ _ _ _
        | slice v =>
          cases v with
            | structT eflds =>
              simp only [List.mem_singleton] at hx
              subst hx
              exact mkDetailControl_postBuild _ _ _ _ _ _ (buildUIElements_postBuild eflds _ opts)
            | ptr w =>
              cases w with
                | structT eflds =>
                  simp only [List.mem_singleton] at hx
                  subst hx
                  exact mkDetailControl_postBuild _ _ _ _ _ _ (buildUIElements_postBuild eflds _ opts)
                | prim pk =>
                  simp only [List.mem_singleton] at hx
                  subst hx
                  exact plainBranch_postBuild _ _ _ _ _
                | timeType =>
                  simp only [List.mem_singleton] at hx
                  subst hx
                  exact plainBranch_postBuild _ _ _ _ _
                | ptr x2 =>
                  simp only [List.mem_singleton] at hx
                  subst hx
                  exact plainBranch_postBuild _ _ _ _ _
                | slice x2 =>
                  simp only [List.mem_singleton] at hx
                  subst hx
                  exact plainBranch_postBuild _ _ _ _ _
            | prim pk =>
              simp only [List.mem_singleton] at hx
              subst hx
              exact plainBranch_postBuild _ _ _ _ _
            | timeType =>
              simp only [List.mem_singleton] at hx
              subst hx
              exact plainBranch_postBuild _ _ _ _ _
            | slice w =>
              simp only [List.mem_singleton] at hx
              subst hx
              exact plainBranch_postBuild _ _ _ _ _
    | slice u =>
      cases u with
        | structT eflds =>
          simp only [List.mem_singleton] at hx
          subst hx
          exact mkDetailControl_postBuild _ _ _ _ _ _ (buildUIElements_postBuild eflds _ opts)
        | ptr v =>
          cases v with
            | structT eflds =>
              simp only [List.mem_singleton] at hx
              subst hx
              exact mkDetailControl_postBuild _ _ _ _ _ _ (buildUIElements_postBuild eflds _ opts)
            | prim pk =>
              simp only [List.mem_singleton] at hx
              subst hx
              exact plainBranch_postBuild _ _ _ _ _
            | timeType =>
              simp only [List.mem_singleton] at hx
              subst hx
              exact plainBranch_postBuild _ _ _ _ _
            | ptr w =>
              simp only [List.mem_singleton] at hx
              subst hx
              exact plainBranch_postBuild _ _ _ _ _
            | slice w =>
              simp only [List.mem_singleton] at hx
              subst hx
              exact plainBranch_postBuild _ _ _ _ _
        | prim pk =>
          simp only [List.mem_singleton] at hx
          subst hx
          exact plainBranch_postBuild _ _ _ _ _
        | timeType =>
          simp only [List.mem_singleton] at hx
          subst hx
          exact plainBranch_postBuild _ _ _ _ _
        | slice w =>
          simp only [List.mem_singleton] at hx
          subst hx
          exact plainBranch_postBuild _ _ _ _ _
termination_by goFieldSize f
decreasing_by all_goals (simp [goFieldSize, goFieldsSize, goTypeSize]; try omega)

/-- Every element the node builder produces satisfies the build invariant. -/
theorem buildUIElements_postBuild (flds : List GoField) (basePath : String) (opts : Options) :
    ∀ x ∈ buildUIElements flds basePath opts, postBuildElem x = true := by
  cases flds with
  | nil =>
    intro x hx
    rw [show buildUIElements [] basePath opts = [] from rfl] at hx
    exact absurd hx (List.not_mem_nil x)
  | cons f rest =>
    intro x hx
    rw [buildUIElements_cons] at hx
    rcases List.mem_append.mp hx with hx | hx
    · exact buildUIField_postBuild f basePath opts x hx
    · exact buildUIElements_postBuild rest basePath opts x hx
termination_by goFieldsSize flds
decreasing_by all_goals (simp [goFieldSize, goFieldsSize, goTypeSize]; try omega)

end

/-- Every root sibling satisfies the build invariant. -/
theorem rootUIElements_postBuild (t : GoType) (opts : Options) :
    ∀ x ∈ rootUIElements t opts, postBuildElem x = true := by
  cases t with
  | structT flds => exact buildUIElements_postBuild flds "#/properties" opts
  | ptr u =>
    cases u with
    | structT flds => exact buildUIElements_postBuild flds "#/properties" opts
    | prim pk =>
      intro x hx
      exact absurd hx (List.not_mem_nil x)
    | timeType =>
      intro x hx
      exact absurd hx (List.not_mem_nil x)
    | ptr w =>
      intro x hx
      exact absurd hx (List.not_mem_nil x)
    | slice w =>
      intro x hx
      exact absurd hx (List.not_mem_nil x)
  | prim pk =>
    intro x hx
    exact absurd hx (List.not_mem_nil x)
  | timeType =>
    intro x hx
    exact absurd hx (List.not_mem_nil x)
  | slice w =>
    intro x hx
    exact absurd hx (List.not_mem_nil x)

/-! ## Cleanliness of the categorization path -/

theorem optHasKey_del_le {k2 k : String} (m : OptMap)
    (h : optHasKey k2 m = false) : optHasKey k2 (optDel k m) = false := by
  by_cases hk : k2 = k
  · subst hk
    exact optHasKey_del_self _ _
  · rw [optHasKey_del_ne hk]
    exact h

theorem anyKeys_del (ks : List String) (k : String) (m : OptMap)
    (h : (ks.any fun k2 => optHasKey k2 m) = false) :
    (ks.any fun k2 => optHasKey k2 (optDel k m)) = false := by
  induction ks with
  | nil => rfl
  | cons k0 rest ih =>
    simp only [List.any_cons, Bool.or_eq_false_iff] at h ⊢
    exact ⟨optHasKey_del_le m h.1, ih h.2⟩

/-- An element with no top options map is clean iff its children are. -/
theorem noKeysElem_of_parts (ks : List String) (el : Elem)
    (h1 : el.optionsOf = none) (h2 : noKeysList ks el.elementsOf = true) :
    noKeysElem ks el = true := by
  cases el with
  | mk t l i sc es opts r =>
    cases opts with
    | none =>
      rw [noKeysElem_mk_none]
      exact h2
    | some m => simp [Elem.optionsOf] at h1

/-- Replacing a clean element's top options map by a smaller clean map (absent
when empty) keeps the element clean. -/
theorem noKeysElem_replace_opts (ks : List String) (t l i sc : String) (es : List Elem)
    (m m2 : OptMap) (r : Option UISchemaRule)
    (h : noKeysElem ks (.mk t l i sc es (some m) r) = true)
    (hkeys2 : (ks.any fun k2 => optHasKey k2 m2) = false)
    (hvals2 : noKeysVals ks m2 = true) :
    noKeysElem ks ((Elem.mk t l i sc es (some m) r).withOptions
      (if m2.isEmpty then none else some m2)) = true := by
  rw [noKeysElem_mk_some] at h
  rw [Bool.and_eq_true] at h
  obtain ⟨ha, hes⟩ := h
  by_cases hm2 : m2.isEmpty = true
  · rw [if_pos hm2]
    show noKeysElem ks (.mk t l i sc es none r) = true
    rw [noKeysElem_mk_none]
    exact hes
  · rw [if_neg hm2]
    show noKeysElem ks (.mk t l i sc es (some m2) r) = true
    rw [noKeysElem_mk_some]
    simp [hm2, hkeys2, hvals2, hes]

/-- Consuming the `category` hint of a freshly built element preserves the
build invariant. -/
theorem catNameConsume_postBuild (el : Elem) (h : postBuildElem el = true) :
    postBuildElem (catNameConsume el).2 = true := by
  obtain ⟨h1, h2⟩ := postBuildElem_parts h
  cases el with
  | mk t l i sc es opts r =>
    simp only [Elem.elementsOf] at h2
    cases opts with
    | none => exact h
    | some m =>
      rw [catNameConsume]
      dsimp only [Elem.optionsOf]
      cases hg : optGet "category" m with
      | none => exact h
      | some v =>
        cases v with
        | b bv => exact h
        | el e2 => exact h
        | s c =>
          dsimp only
          by_cases hc : c = ""
          · rw [if_neg (by simpa using hc)]
            exact h
          · rw [if_pos hc]
            dsimp only
            rw [hintOkTop_mk_some] at h1
            rw [Bool.and_eq_true] at h1
            obtain ⟨h1a, hvals⟩ := h1
            rw [Bool.and_eq_true] at h1a
            obtain ⟨h1b, hlg⟩ := h1a
            rw [Bool.and_eq_true] at h1b
            obtain ⟨hne, hlay⟩ := h1b
            have e1 : optGet "layout" (optDel "category" m) = optGet "layout" m :=
              optGet_del_ne (by decide) m
            have e2 : optHasKey "layoutGroup" (optDel "category" m)
                = optHasKey "layoutGroup" m := optHasKey_del_ne (by decide) m
            by_cases hm2 : (optDel "category" m).isEmpty = true
            · rw [if_pos hm2]
              show postBuildElem (.mk t l i sc es none r) = true
              rw [postBuildElem, Bool.and_eq_true]
              exact ⟨hintOkTop_mk_none t l i sc es r, h2⟩
            · rw [if_neg hm2]
              show postBuildElem (.mk t l i sc es (some (optDel "category" m)) r) = true
              rw [postBuildElem, Bool.and_eq_true]
              refine ⟨?_, h2⟩
              have e3 : isHorizontalElement (.mk t l i sc es (some (optDel "category" m)) r)
                  = isHorizontalElement (.mk t l i sc es (some m) r) := by
                simp [isHorizontalElement, Elem.optionsOf, e1]
              rw [hintOkTop_mk_some, Bool.and_eq_true, Bool.and_eq_true, Bool.and_eq_true]
              refine ⟨⟨⟨?_, ?_⟩, ?_⟩, ?_⟩
              · simpa using hm2
              · rw [e1]
                exact hlay
              · rw [e2, e3]
                exact hlg
              · exact noKeysVals_del _ _ _ hvals

/-- Every member of every bucket produced by `addToBuckets` satisfies a
property that the accumulator's members and the new member satisfy. -/
theorem addToBuckets_members (acc : List (String × List Elem)) (n : String) (x : Elem)
    (P : Elem → Prop)
    (hacc : ∀ b ∈ acc, ∀ y ∈ b.2, P y) (hx : P x) :
    ∀ b ∈ addToBuckets acc n x, ∀ y ∈ b.2, P y := by
  induction acc with
  | nil =>
    intro b hb y hy
    rw [addToBuckets, List.mem_singleton] at hb
    subst hb
    rw [List.mem_singleton] at hy
    subst hy
    exact hx
  | cons p rest ih =>
    rcases p with ⟨n0, xs⟩
    intro b hb y hy
    rw [addToBuckets] at hb
    by_cases hn0 : n0 = n
    · rw [if_pos hn0] at hb
      rcases List.mem_cons.mp hb with hb | hb
      · subst hb
        rcases List.mem_append.mp hy with hy | hy
        · exact hacc (n0, xs) (List.mem_cons_self _ _) y hy
        · rw [List.mem_singleton] at hy
          subst hy
          exact hx
      · exact hacc b (List.mem_cons_of_mem _ hb) y hy
    · rw [if_neg hn0] at hb
      rcases List.mem_cons.mp hb with hb | hb
      · subst hb
        exact hacc (n0, xs) (List.mem_cons_self _ _) y hy
      · exact ih (fun b2 hb2 => hacc b2 (List.mem_cons_of_mem _ hb2)) b hb y hy

/-- Every member of every bucket collected by `collectAux` is the
category-consumed form of an input sibling (or comes from the accumulator). -/
theorem collectAux_members (es : List Elem) (P : Elem → Prop) :
    ∀ acc, (∀ b ∈ acc, ∀ y ∈ b.2, P y) → (∀ x ∈ es, P (catNameConsume x).2) →
    ∀ b ∈ collectAux es acc, ∀ y ∈ b.2, P y := by
  induction es with
  | nil =>
    intro acc hacc _ b hb
    exact hacc b hb
  | cons e rest ih =>
    intro acc hacc hes
    rw [collectAux]
    exact ih _ (addToBuckets_members acc _ _ P hacc (hes e (List.mem_cons_self _ _)))
      (fun x hx => hes x (List.mem_cons_of_mem _ hx))

/-- The child list returned by the category-rule scan stays fully clean. -/
theorem scanCategoryRule_clean (es : List Elem) (h : noKeysList layoutKeys es = true) :
    ∀ p, scanCategoryRule es = some p → noKeysList layoutKeys p.2 = true := by
  induction es with
  | nil =>
    intro p hp
    cases hp
  | cons el rest ih =>
    intro p hp
    rw [noKeysList, Bool.and_eq_true] at h
    obtain ⟨hel, hrest⟩ := h
    rw [scanCategoryRule] at hp
    cases el with
    | mk t l i sc ces copts r =>
      cases copts with
      | none =>
        dsimp only [Elem.optionsOf] at hp
        cases hs : scanCategoryRule rest with
        | none =>
          rw [hs] at hp
          cases hp
        | some p2 =>
          rw [hs] at hp
          dsimp only at hp
          cases hp
          rw [noKeysList, Bool.and_eq_true]
          exact ⟨hel, ih hrest p2 hs⟩
      | some m =>
        dsimp only [Elem.optionsOf] at hp
        cases hg1 : optGet "categoryRuleEffect" m with
        | some v1 =>
          cases v1 with
          | s eff =>
            cases hg2 : optGet "categoryRuleExpr" m with
            | some v2 =>
              cases v2 with
              | s ex2 =>
                rw [hg1, hg2] at hp
                dsimp only at hp
                cases hp
                rw [noKeysList, Bool.and_eq_true]
                constructor
                · rw [noKeysElem_mk_some, Bool.and_eq_true, Bool.and_eq_true,
                    Bool.and_eq_true] at hel
                  obtain ⟨⟨⟨hne, hkeys⟩, hvals⟩, hces⟩ := hel
                  refine noKeysElem_replace_opts _ t l i sc ces m _ r ?_ ?_ ?_
                  · rw [noKeysElem_mk_some]
                    simp [hne, hkeys, hvals, hces]
                  · apply anyKeys_del
                    apply anyKeys_del
                    simpa using hkeys
                  · exact noKeysVals_del _ _ _ (noKeysVals_del _ _ _ hvals)
                · exact hrest
              | b bv =>
                rw [hg1, hg2] at hp
                dsimp only at hp
                cases hs : scanCategoryRule rest with
                | none =>
                  rw [hs] at hp
                  cases hp
                | some p2 =>
                  rw [hs] at hp
                  dsimp only at hp
                  cases hp
                  rw [noKeysList, Bool.and_eq_true]
                  exact ⟨hel, ih hrest p2 hs⟩
              | el e2 =>
                rw [hg1, hg2] at hp
                dsimp only at hp
                cases hs : scanCategoryRule rest with
                | none =>
                  rw [hs] at hp
                  cases hp
                | some p2 =>
                  rw [hs] at hp
                  dsimp only at hp
                  cases hp
                  rw [noKeysList, Bool.and_eq_true]
                  exact ⟨hel, ih hrest p2 hs⟩
            | none =>
              rw [hg1, hg2] at hp
              dsimp only at hp
              cases hs : scanCategoryRule rest with
              | none =>
                rw [hs] at hp
                cases hp
              | some p2 =>
                rw [hs] at hp
                dsimp only at hp
                cases hp
                rw [noKeysList, Bool.and_eq_true]
                exact ⟨hel, ih hrest p2 hs⟩
          | b bv =>
            rw [hg1] at hp
            dsimp only at hp
            cases hs : scanCategoryRule rest with
            | none =>
              rw [hs] at hp
              cases hp
            | some p2 =>
              rw [hs] at hp
              dsimp only at hp
              cases hp
              rw [noKeysList, Bool.and_eq_true]
              exact ⟨hel, ih hrest p2 hs⟩
          | el e2 =>
            rw [hg1] at hp
            dsimp only at hp
            cases hs : scanCategoryRule rest with
            | none =>
              rw [hs] at hp
              cases hp
            | some p2 =>
              rw [hs] at hp
              dsimp only at hp
              cases hp
              rw [noKeysList, Bool.and_eq_true]
              exact ⟨hel, ih hrest p2 hs⟩
        | none =>
          rw [hg1] at hp
          dsimp only at hp
          cases hs : scanCategoryRule rest with
          | none =>
            rw [hs] at hp
            cases hp
          | some p2 =>
            rw [hs] at hp
            dsimp only at hp
            cases hp
            rw [noKeysList, Bool.and_eq_true]
            exact ⟨hel, ih hrest p2 hs⟩

/-- The child list returned by the category-i18n scan stays fully clean. -/
theorem scanCategoryI18n_clean (es : List Elem) (h : noKeysList layoutKeys es = true) :
    ∀ p, scanCategoryI18n es = some p → noKeysList layoutKeys p.2 = true := by
  induction es with
  | nil =>
    intro p hp
    cases hp
  | cons el rest ih =>
    intro p hp
    rw [noKeysList, Bool.and_eq_true] at h
    obtain ⟨hel, hrest⟩ := h
    rw [scanCategoryI18n] at hp
    cases el with
    | mk t l i sc ces copts r =>
      cases copts with
      | none =>
        dsimp only [Elem.optionsOf] at hp
        cases hs : scanCategoryI18n rest with
        | none =>
          rw [hs] at hp
          cases hp
        | some p2 =>
          rw [hs] at hp
          dsimp only at hp
          cases hp
          rw [noKeysList, Bool.and_eq_true]
          exact ⟨hel, ih hrest p2 hs⟩
      | some m =>
        dsimp only [Elem.optionsOf] at hp
        cases hg : optGet "categoryI18n" m with
        | none =>
          rw [hg] at hp
          dsimp only at hp
          cases hs : scanCategoryI18n rest with
          | none =>
            rw [hs] at hp
            cases hp
          | some p2 =>
            rw [hs] at hp
            dsimp only at hp
            cases hp
            rw [noKeysList, Bool.and_eq_true]
            exact ⟨hel, ih hrest p2 hs⟩
        | some v =>
          cases v with
          | b bv =>
            rw [hg] at hp
            dsimp only at hp
            cases hs : scanCategoryI18n rest with
            | none =>
              rw [hs] at hp
              cases hp
            | some p2 =>
              rw [hs] at hp
              dsimp only at hp
              cases hp
              rw [noKeysList, Bool.and_eq_true]
              exact ⟨hel, ih hrest p2 hs⟩
          | el e2 =>
            rw [hg] at hp
            dsimp only at hp
            cases hs : scanCategoryI18n rest with
            | none =>
              rw [hs] at hp
              cases hp
            | some p2 =>
              rw [hs] at hp
              dsimp only at hp
              cases hp
              rw [noKeysList, Bool.and_eq_true]
              exact ⟨hel, ih hrest p2 hs⟩
          | s key =>
            rw [hg] at hp
            dsimp only at hp
            by_cases hk : key = ""
            · rw [if_neg (by simpa using hk)] at hp
              cases hs : scanCategoryI18n rest with
              | none =>
                rw [hs] at hp
                cases hp
              | some p2 =>
                rw [hs] at hp
                dsimp only at hp
                cases hp
                rw [noKeysList, Bool.and_eq_true]
                exact ⟨hel, ih hrest p2 hs⟩
            · rw [if_pos hk] at hp
              cases hp
              rw [noKeysList, Bool.and_eq_true]
              constructor
              · rw [noKeysElem_mk_some, Bool.and_eq_true, Bool.and_eq_true,
                  Bool.and_eq_true] at hel
                obtain ⟨⟨⟨hne, hkeys⟩, hvals⟩, hces⟩ := hel
                refine noKeysElem_replace_opts _ t l i sc ces m _ r ?_ ?_ ?_
                · rw [noKeysElem_mk_some]
                  simp [hne, hkeys, hvals, hces]
                · apply anyKeys_del
                  simpa using hkeys
                · exact noKeysVals_del _ _ _ hvals
              · exact hrest

theorem extractCategoryRule_optionsOf (cat : Elem) :
    (extractCategoryRule cat).optionsOf = cat.optionsOf := by
  unfold extractCategoryRule
  cases scanCategoryRule cat.elementsOf with
  | none => rfl
  | some p => rw [withRule_optionsOf, withElements_optionsOf]

theorem extractCategoryRule_els_clean (cat : Elem)
    (h : noKeysList layoutKeys cat.elementsOf = true) :
    noKeysList layoutKeys (extractCategoryRule cat).elementsOf = true := by
  unfold extractCategoryRule
  cases hs : scanCategoryRule cat.elementsOf with
  | none => exact h
  | some p =>
    rw [withRule_elementsOf, withElements_elementsOf]
    exact scanCategoryRule_clean _ h p hs

theorem extractCategoryI18n_optionsOf (cat : Elem) (opts : Options) :
    (extractCategoryI18n cat opts).optionsOf = cat.optionsOf := by
  unfold extractCategoryI18n
  cases scanCategoryI18n cat.elementsOf with
  | none => rfl
  | some p => rw [withLabel_optionsOf, withI18n_optionsOf, withElements_optionsOf]

theorem extractCategoryI18n_els_clean (cat : Elem) (opts : Options)
    (h : noKeysList layoutKeys cat.elementsOf = true) :
    noKeysList layoutKeys (extractCategoryI18n cat opts).elementsOf = true := by
  unfold extractCategoryI18n
  cases hs : scanCategoryI18n cat.elementsOf with
  | none => exact h
  | some p =>
    rw [withLabel_elementsOf, withI18n_elementsOf, withElements_elementsOf]
    exact scanCategoryI18n_clean _ h p hs

/-- A finished Category node is fully clean whenever its bucket members
satisfy the build invariant. -/
theorem finishCategory_clean (opts : Options) (p : String × List Elem)
    (h : ∀ y ∈ p.2, postBuildElem y = true) :
    noKeysElem layoutKeys (finishCategory opts p) = true := by
  unfold finishCategory
  dsimp only
  have hc0els : noKeysList layoutKeys
      ((NewCategory p.1).withElements (groupHorizontalElements p.2)).elementsOf = true := by
    rw [withElements_elementsOf]
    exact (noKeysList_iff _ _).mpr (groupHorizontalElements_clean _ h)
  apply noKeysElem_of_parts
  · rw [extractCategoryI18n_optionsOf, extractCategoryRule_optionsOf]
    rfl
  · exact extractCategoryI18n_els_clean _ opts (extractCategoryRule_els_clean _ hc0els)

/-- The Categorization wrapper is fully clean whenever the root siblings
satisfy the build invariant. -/
theorem buildCategorization_clean (els : List Elem) (opts : Options)
    (h : ∀ x ∈ els, postBuildElem x = true) :
    noKeysElem layoutKeys (buildCategorization els opts) = true := by
  unfold buildCategorization
  apply noKeysElem_of_parts
  · rw [withElements_optionsOf]
    rfl
  · rw [withElements_elementsOf, noKeysList_iff]
    intro y hy
    rcases List.mem_map.mp hy with ⟨b, hb, hfin⟩
    rw [show collectBuckets els = collectAux els [] from rfl] at hb
    subst hfin
    apply finishCategory_clean
    exact collectAux_members els (fun z => postBuildElem z = true) []
      (fun b2 hb2 _ _ => absurd hb2 (List.not_mem_nil b2))
      (fun x hx => catNameConsume_postBuild x (h x hx)) b hb

/-- C1, counterexample to the original claim.  On `leakType` — a struct whose
nested struct's field carries `category`, `visibleIf` and `i18nKey` form-tag
hints while no root sibling is categorized — the synthesized tree keeps all
four category-family hint keys on the nested Control: the six-key cleanliness
check fails, while the layout-key cleanliness holds. -/
theorem claim_C1_counterexample :
    noKeysElem hintKeys (GenerateUISchemaWithOptions leakType {}).1 = false ∧
    (∃ el ∈ (GenerateUISchemaWithOptions leakType {}).1.elementsOf,
      ∃ inner ∈ el.elementsOf,
        optHasKey "category" ((inner.optionsOf).getD []) = true ∧
        optHasKey "categoryRuleEffect" ((inner.optionsOf).getD []) = true ∧
        optHasKey "categoryRuleExpr" ((inner.optionsOf).getD []) = true ∧
        optHasKey "categoryI18n" ((inner.optionsOf).getD []) = true) := by
  exact ⟨by decide, by decide⟩

/-- C1, amended.  For every synthesized tree returned by
`GenerateUISchemaWithOptions`, no node anywhere in the tree (children lists
and `detail` sub-layouts included) has an options map containing the keys
`layout` or `layoutGroup`, and every present options map is non-empty.  The
four category-family hint keys (`category`, `categoryRuleEffect`,
`categoryRuleExpr`, `categoryI18n`) are NOT guaranteed to be removed: they
survive on nodes nested below the root sibling list (see the
counterexample). -/
theorem claim_C1_amended (t : GoType) (opts : Options) :
    noKeysElem layoutKeys (GenerateUISchemaWithOptions t opts).1 = true := by
  unfold GenerateUISchemaWithOptions
  dsimp only
  split_ifs with hcat
  · exact buildCategorization_clean _ opts (rootUIElements_postBuild t opts)
  · apply noKeysElem_of_parts
    · rw [withElements_optionsOf]
      rfl
    · rw [withElements_elementsOf, noKeysList_iff]
      exact groupHorizontalElements_clean _ (rootUIElements_postBuild t opts)

end UIJS
